import Mathlib

/-!
Verification development for the distributed-todo-app synchronization core.

Shallow embedding of:
* the update data model (`database-update.ts`),
* the block graph (`block-graph.ts`, the revision whose block id field is `_id`),
* the sync procedures `integrateBlock` / `findBlocksFromTime` (`sync.ts`),
* the document store semantics of `Collection.applyIncomingUpdates` /
  `Database.applyIncomingUpdates` (`collection.ts` / `database.ts`),
* `Collection.upsertOne` / `Collection.deleteOne` (`collection.ts`),
* the broker HTTP handlers for `/check-in` and `/push-blocks` (`broker.ts`).

Remarks on the embedding:
* JavaScript `Map`s keyed by block id are embedded as lists of blocks in
  insertion order (`Map.set` replaces in place when the key exists, else
  appends; iteration order is insertion order).
* JavaScript `Set`s of strings are embedded as lists; `new Set(array)` keeps
  the first occurrence of each element, `add` appends when absent.
* Timestamps are integers (`Date.now()` values in milliseconds).
* Field values are embedded as strings (the sync layer treats them as opaque).
* Asynchronous functions whose awaited effects all resolve are embedded as
  pure functions; fallible paths (thrown errors) are embedded with `Except`.
-/

/-- Field values carried by updates.  The sync layer never inspects them. -/
abbrev JsValue := String

/-- Embedding of `DatabaseUpdate` from `database-update.ts`: a tagged union of
a `field` update `{timestamp, collection, _id, field, value}` and a `delete`
update `{timestamp, collection, _id}`. -/
inductive DatabaseUpdate where
  | field (timestamp : Int) (collection : String) (docId : String)
      (fieldName : String) (value : JsValue)
  | delete (timestamp : Int) (collection : String) (docId : String)
deriving DecidableEq, Repr

/-- Timestamp of an update (the `timestamp` property). -/
def DatabaseUpdate.timestamp : DatabaseUpdate → Int
  | .field ts _ _ _ _ => ts
  | .delete ts _ _ => ts

/-- Collection name of an update (the `collection` property). -/
def DatabaseUpdate.collection : DatabaseUpdate → String
  | .field _ c _ _ _ => c
  | .delete _ c _ => c

/-- Document id of an update (the `_id` property). -/
def DatabaseUpdate.docId : DatabaseUpdate → String
  | .field _ _ i _ _ => i
  | .delete _ _ i => i

/-- Embedding of `IBlock<DatabaseUpdate[]>` from `block-graph.ts`:
`{ _id, prevBlocks, data }`. -/
structure Block where
  _id : String
  prevBlocks : List String
  data : List DatabaseUpdate
deriving DecidableEq, Repr

/-- In-memory state of the `BlockGraph` class from `block-graph.ts`: the
`blockMap` (a `Map` keyed by `_id`, kept in insertion order) and the
`headBlockIds` array. -/
structure BlockGraph where
  blockMap : List Block
  headBlockIds : List String
deriving DecidableEq, Repr

/-- Fresh `BlockGraph` as built by the constructor: empty map, no heads. -/
def BlockGraph.empty : BlockGraph := { blockMap := [], headBlockIds := [] }

/-- Lookup in a block map by id (`Map.get`). -/
def lookupBlock (m : List Block) (id : String) : Option Block :=
  m.find? (fun b => b._id == id)

/-- Embedding of `Map.set(block._id, block)`: replace in place when the id is
present, append otherwise. -/
def mapSet (m : List Block) (b : Block) : List Block :=
  if m.any (fun x => x._id == b._id) then
    m.map (fun x => if x._id == b._id then b else x)
  else
    m ++ [b]

/-- Ids present in a block map. -/
def mapIds (m : List Block) : List String := m.map Block._id

/-- Embedding of `new Set(array)` on strings: duplicates removed, first
occurrence kept, order otherwise preserved. -/
def dedupFirstAux : List String → List String → List String
  | _, [] => []
  | seen, x :: xs =>
    if x ∈ seen then dedupFirstAux seen xs
    else x :: dedupFirstAux (x :: seen) xs

/-- Set construction from an array (`new Set(array)`). -/
def dedupFirst (l : List String) : List String := dedupFirstAux [] l

/-- Embedding of `Set.add`: append when absent, no change when present. -/
def setAdd (l : List String) (x : String) : List String :=
  if x ∈ l then l else l ++ [x]

/-- Embedding of `BlockGraph.getHeadBlockIds`. -/
def BlockGraph.getHeadBlockIds (g : BlockGraph) : List String := g.headBlockIds

/-- Embedding of `BlockGraph.hasBlockInMemory`. -/
def BlockGraph.hasBlockInMemory (g : BlockGraph) (id : String) : Bool :=
  (lookupBlock g.blockMap id).isSome

/-- Loop of `BlockGraph.getHeadBlocks`: look every head id up in the
in-memory `blockMap`, collecting the blocks in order and throwing when one is
missing. -/
def resolveHeads (m : List Block) : List String → Except String (List Block)
  | [] => Except.ok []
  | id :: ids =>
    match lookupBlock m id with
    | some b => (resolveHeads m ids).map (fun bs => b :: bs)
    | none => Except.error ("Head block " ++ id ++ " not found.")

/-- Embedding of `BlockGraph.getHeadBlocks`: looks every head id up in the
in-memory `blockMap` and throws when one is missing. -/
def BlockGraph.getHeadBlocks (g : BlockGraph) : Except String (List Block) :=
  resolveHeads g.blockMap g.headBlockIds

/-- Storage writes issued by the block graph: `storeDocument("blocks", block)`
and `storeDocument("block-graphs", { _id: "head-blocks", headBlockIds })`. -/
inductive StorageWrite where
  | writeBlock (b : Block)
  | writeHeads (headBlockIds : List String)
deriving DecidableEq, Repr

/-- Embedding of the private `storeBlock` helper of `block-graph.ts`: it
awaits the storage write and catches any error (only logging it), so the
returned promise resolves (`some ()`) whether or not the write succeeded. -/
def BlockGraph.storeBlockSettles (writeResult : Except String Unit) : Option Unit :=
  match writeResult with
  | .ok _ => some ()
  | .error _ => some ()

/-- Embedding of the private `storeHeadBlocks` helper of `block-graph.ts`:
same catch-and-log structure as `storeBlock`. -/
def BlockGraph.storeHeadsSettles (writeResult : Except String Unit) : Option Unit :=
  match writeResult with
  | .ok _ => some ()
  | .error _ => some ()

/-- Result of `BlockGraph.commitBlock`: the returned block, the updated
in-memory state, the storage writes issued by `Promise.all`, and whether the
returned promise resolved. -/
structure CommitResult where
  block : Block
  graph : BlockGraph
  issuedWrites : List StorageWrite
  resolved : Bool
deriving Repr

/-- Embedding of `BlockGraph.commitBlock`.  The fresh uuid is passed in as
`freshId`; `blockWriteResult` / `headsWriteResult` are the outcomes of the two
underlying `storage.storeDocument` calls awaited via `Promise.all`. -/
def BlockGraph.commitBlock (g : BlockGraph) (freshId : String)
    (data : List DatabaseUpdate)
    (blockWriteResult headsWriteResult : Except String Unit) : CommitResult :=
  let prevBlocks := g.getHeadBlockIds
  let block : Block := { _id := freshId, prevBlocks := prevBlocks, data := data }
  { block := block
    graph := { blockMap := mapSet g.blockMap block, headBlockIds := [freshId] }
    issuedWrites := [.writeBlock block, .writeHeads [freshId]]
    resolved := (BlockGraph.storeBlockSettles blockWriteResult).isSome
      && (BlockGraph.storeHeadsSettles headsWriteResult).isSome }

/-- Embedding of the in-memory effect of `BlockGraph.integrateBlock`: no-op
when the id is already in `blockMap`; otherwise insert the block, rebuild the
head set (`new Set(heads)`, delete every `prevBlocks` entry, add the new id)
and store it as an array. -/
def BlockGraph.integrateBlock (g : BlockGraph) (b : Block) : BlockGraph :=
  if g.hasBlockInMemory b._id then g
  else
    { blockMap := mapSet g.blockMap b
      headBlockIds :=
        setAdd ((dedupFirst g.headBlockIds).filter
          (fun h => ¬ h ∈ b.prevBlocks)) b._id }

/-- Operations that mutate a block graph, for reasoning about arbitrary
operation sequences.  `commitOp` carries the fresh uuid allocated by
`commitBlock`. -/
inductive GraphOp where
  | commitOp (freshId : String) (data : List DatabaseUpdate)
  | integrateOp (b : Block)

/-- Execute a single graph operation on the in-memory state. -/
def execOp (g : BlockGraph) : GraphOp → BlockGraph
  | .commitOp freshId data =>
    (g.commitBlock freshId data (.ok ()) (.ok ())).graph
  | .integrateOp b => g.integrateBlock b

/-- Execute a sequence of graph operations from a starting state. -/
def execOps (g : BlockGraph) (ops : List GraphOp) : BlockGraph :=
  ops.foldl execOp g

/-- Validity of one operation in a state: a commit allocates a uuid that
appears nowhere in the graph (uuid v4 freshness), an integrate only happens
when all `prevBlocks` of the incoming block are already present. -/
def validOp (g : BlockGraph) : GraphOp → Prop
  | .commitOp freshId _ =>
    freshId ∉ mapIds g.blockMap ∧ ∀ b ∈ g.blockMap, freshId ∉ b.prevBlocks
  | .integrateOp b => ∀ p ∈ b.prevBlocks, p ∈ mapIds g.blockMap

instance : ∀ (g : BlockGraph) (op : GraphOp), Decidable (validOp g op)
  | _, .commitOp _ _ => by unfold validOp; infer_instance
  | _, .integrateOp _ => by unfold validOp; infer_instance

/-- Validity of an operation sequence, each step valid in the state it runs
in. -/
def validSeq (g : BlockGraph) : List GraphOp → Prop
  | [] => True
  | op :: ops => validOp g op ∧ validSeq (execOp g op) ops

instance : ∀ (g : BlockGraph) (ops : List GraphOp), Decidable (validSeq g ops)
  | _, [] => by unfold validSeq; infer_instance
  | g, op :: ops =>
    have : Decidable (validSeq (execOp g op) ops) := instDecidableValidSeq _ _
    by unfold validSeq; infer_instance

/-- Membership of `id` in the `prevBlocks` of some block of the map: the id is
referenced by another (or the same) block of the graph. -/
def referencedInMap (id : String) (m : List Block) : Prop :=
  ∃ c ∈ m, id ∈ c.prevBlocks

instance (id : String) (m : List Block) : Decidable (referencedInMap id m) := by
  unfold referencedInMap; infer_instance

/-! Storage-aware view of the block graph, for claims that distinguish the
in-memory `blockMap` from persisted state.  The storage is the `blocks`
collection (documents keyed by `_id`) plus the single
`block-graphs/head-blocks` record. -/

/-- Persistent storage contents relevant to the block graph. -/
structure GraphStorage where
  blocks : List Block
  headBlocksRecord : Option (List String)
deriving DecidableEq, Repr

/-- In-memory graph plus its backing storage. -/
structure FullGraphState where
  graph : BlockGraph
  storage : GraphStorage
deriving DecidableEq, Repr

/-- Embedding of `BlockGraph.loadHeadBlocks`: read the
`block-graphs/head-blocks` record; when present, adopt its `headBlockIds` and
hydrate each listed head block from the `blocks` collection into the
in-memory map (ids whose block is missing from storage are skipped). -/
def BlockGraph.loadHeadBlocks (storage : GraphStorage) : BlockGraph :=
  match storage.headBlocksRecord with
  | none => BlockGraph.empty
  | some ids =>
    { headBlockIds := ids
      blockMap := ids.foldl (fun m id =>
        match lookupBlock storage.blocks id with
        | some b => mapSet m b
        | none => m) [] }

/-- Embedding of `BlockGraph.integrateBlock` including its storage writes
(both of which are assumed to succeed here): the presence check consults only
the in-memory `blockMap`. -/
def FullGraphState.integrateBlock (st : FullGraphState) (b : Block) :
    FullGraphState :=
  if st.graph.hasBlockInMemory b._id then st
  else
    let graph := st.graph.integrateBlock b
    { graph := graph
      storage :=
        { blocks := mapSet st.storage.blocks b
          headBlocksRecord := some graph.headBlockIds } }

/-! Document store semantics.  `IStorage` maps `(collectionName, _id)` to a
document; a document is a JavaScript object, embedded as a function from
field name to optional value (object key order is not observable through the
sync semantics). -/

/-- Document: field name to value. -/
def Doc := String → Option JsValue

/-- Contents of one storage collection: document id to document. -/
def CollectionStore := String → Option Doc

/-- Whole document storage: collection name to collection contents. -/
def DocStore := String → CollectionStore

/-- Empty collection. -/
def emptyCollectionStore : CollectionStore := fun _ => none

/-- Empty storage. -/
def emptyDocStore : DocStore := fun _ => emptyCollectionStore

/-- Effect of one update on one collection's contents, exactly the loop body
of `Collection.applyIncomingUpdates` in `collection.ts`:
a `field` update fetches the document, creates
`{_id: update._id, [update.field]: update.value}` when absent or spreads
`{...document, [update.field]: update.value}` when present, and stores it;
a `delete` update deletes the document unconditionally. -/
def applyCollectionUpdate (cs : CollectionStore) (u : DatabaseUpdate) :
    CollectionStore :=
  match u with
  | .field _ _ docId f v =>
    let document : Doc :=
      match cs docId with
      | none => fun k => if k = f then some v else if k = "_id" then some docId else none
      | some d => fun k => if k = f then some v else d k
    fun i => if i = docId then some document else cs i
  | .delete _ _ docId =>
    fun i => if i = docId then none else cs i

/-- Embedding of `Collection.applyIncomingUpdates`: applies the updates in
order, throwing when an update's collection name does not match the
collection. -/
def Collection.applyIncomingUpdates (collectionName : String)
    (cs : CollectionStore) (updates : List DatabaseUpdate) :
    Except String CollectionStore :=
  updates.foldlM (fun cs u =>
    if u.collection ≠ collectionName then
      Except.error ("Update collection name " ++ u.collection ++
        " does not match collection name " ++ collectionName ++ ".")
    else
      Except.ok (applyCollectionUpdate cs u)) cs

/-- Collection names in order of first occurrence, as produced by the
`Map<string, DatabaseUpdate[]>` partition loop of
`Database.applyIncomingUpdates` (JavaScript `Map` iteration order is key
insertion order). -/
def collectionKeys (updates : List DatabaseUpdate) : List String :=
  dedupFirstAux [] (updates.map DatabaseUpdate.collection)

/-- Embedding of `Database.applyIncomingUpdates`: partition the updates by
collection (preserving arrival order within each collection), then apply each
collection's batch via `Collection.applyIncomingUpdates`.  Subscriber
notification, which precedes the storage writes, does not touch the store and
is modelled separately where a claim needs it. -/
def Database.applyIncomingUpdates (st : DocStore)
    (updates : List DatabaseUpdate) : Except String DocStore :=
  (collectionKeys updates).foldlM (fun st c => do
    let cs ← Collection.applyIncomingUpdates c (st c)
      (updates.filter (fun u => u.collection == c))
    pure (fun c' => if c' = c then cs else st c')) st

/-! Embedding of `Collection.upsertOne` and `Collection.deleteOne` from
`collection.ts`.  A partial document is a list of `(field, value)` pairs in
object key order; `Date.now()` is passed in as `now`.  The observable effects
are recorded in order as an event trace. -/

/-- Partial document passed to `upsertOne` (object key order preserved). -/
def PartialDoc := List (String × JsValue)

/-- First-match lookup in a partial document (JavaScript object keys are
unique, so first match is the match). -/
def partialLookup (p : List (String × JsValue)) (k : String) : Option JsValue :=
  (p.find? (fun kv => kv.1 == k)).map (fun kv => kv.2)

/-- Observable effects of a collection write operation, in order. -/
inductive CollectionEvent where
  | notifySubscribers (updates : List DatabaseUpdate)
  | outgoingUpdates (updates : List DatabaseUpdate)
  | storeDocument (collectionName : String) (docId : String) (d : Doc)
  | deleteDocument (collectionName : String) (docId : String)

/-- Updates synthesized by `Collection.upsertOne`: one `field` update per key
of the partial document except `_id`, each timestamped `Date.now()`. -/
def upsertUpdates (collectionName docId : String) (update : List (String × JsValue))
    (now : Int) : List DatabaseUpdate :=
  (update.filter (fun kv => kv.1 ≠ "_id")).map (fun kv =>
    DatabaseUpdate.field now collectionName docId kv.1 kv.2)

/-- Document written back by step 3 of `Collection.upsertOne`:
`{_id: documentId, ...update}` when the document is absent,
`{...document, ...update}` when present. -/
def upsertMergedDoc (docId : String) (update : List (String × JsValue))
    (existing : Option Doc) : Doc :=
  match existing with
  | none => fun k =>
    match partialLookup update k with
    | some v => some v
    | none => if k = "_id" then some docId else none
  | some d => fun k =>
    match partialLookup update k with
    | some v => some v
    | none => d k

/-- Embedding of `Collection.upsertOne`: synthesize the `field` updates, then
in order (1) notify subscribers, (2) hand the updates to `onOutgoingUpdates`,
(3) fetch the existing document (`existing`), merge it with the partial and
store it back. -/
def Collection.upsertOne (collectionName docId : String)
    (update : List (String × JsValue)) (now : Int) (existing : Option Doc) :
    List CollectionEvent :=
  let updates := upsertUpdates collectionName docId update now
  [ .notifySubscribers updates,
    .outgoingUpdates updates,
    .storeDocument collectionName docId (upsertMergedDoc docId update existing) ]

/-- Embedding of `Collection.deleteOne`: a single `delete` update, same
three-step fan-out with a final `storage.deleteDocument`. -/
def Collection.deleteOne (collectionName docId : String) (now : Int) :
    List CollectionEvent :=
  let updates := [DatabaseUpdate.delete now collectionName docId]
  [ .notifySubscribers updates,
    .outgoingUpdates updates,
    .deleteDocument collectionName docId ]

/-- Effect of a `CollectionEvent` storage step on the document store (used to
build concrete node states for the scenario claims). -/
def applyCollectionEvent (st : DocStore) : CollectionEvent → DocStore
  | .storeDocument c i d => fun c' =>
    if c' = c then (fun i' => if i' = i then some d else st c i') else st c'
  | .deleteDocument c i => fun c' =>
    if c' = c then (fun i' => if i' = i then none else st c i') else st c'
  | _ => st

/-! Embedding of `sync.ts`: `findBlocksFromTime` and `integrateBlock`. -/

deriving instance DecidableEq for Except

/-- Comparison `data[data.length - 1].timestamp < minTime` from
`findBlocksFromTime`.  On a block with no updates the JavaScript code reads
`.timestamp` off `data[data.length - 1]`, which is `undefined`, and throws a
`TypeError`; this is modelled by the `error` result. -/
def blockBeforeTime (b : Block) (minTime : Int) : Except String Bool :=
  match b.data.getLast? with
  | some u => Except.ok (decide (u.timestamp < minTime))
  | none =>
    Except.error "TypeError: Cannot read properties of undefined (reading timestamp)"

/-- Breadth-first walk of `findBlocksFromTime`: pop the queue front; skip
blocks already visited; mark visited; skip (without expanding) blocks whose
last update is older than `minTime`; otherwise collect the block and enqueue
its resolvable `prevBlocks`.  Visiting a block with an empty update list
throws (the `data[data.length - 1].timestamp` access faults).  The walk is
fuelled; `sync.ts` terminates because every block is expanded at most once,
and the fuel passed by `findBlocksFromTime` is shown adequate below, so the
fuel-exhaustion branch is unreachable there. -/
def bfsFromTime (g : List Block) (minTime : Int) :
    Nat → List Block → List String → List Block → Except String (List Block)
  | 0, _, _, _ => Except.error "fuel exhausted"
  | _ + 1, [], _, acc => Except.ok acc
  | fuel + 1, block :: queue, visited, acc =>
    if block._id ∈ visited then
      bfsFromTime g minTime fuel queue visited acc
    else
      match blockBeforeTime block minTime with
      | Except.error e => Except.error e
      | Except.ok true =>
        bfsFromTime g minTime fuel queue (block._id :: visited) acc
      | Except.ok false =>
        bfsFromTime g minTime fuel
          (queue ++ block.prevBlocks.filterMap (lookupBlock g))
          (block._id :: visited) (acc ++ [block])

/-- Fuel adequate for `bfsFromTime` started from the head blocks. -/
def bfsFuel (g : BlockGraph) : Nat :=
  g.headBlockIds.length + (g.blockMap.map (fun b => b.prevBlocks.length)).sum + 1

/-- Embedding of `findBlocksFromTime` from `sync.ts`: start from
`getHeadBlocks()` (throws when a head block is not loaded) and walk backwards
over `prevBlocks`, collecting every visited block whose last update's
timestamp is at least `minTime` and pruning the walk at blocks older than
that. -/
def findBlocksFromTime (minTime : Int) (g : BlockGraph) :
    Except String (List Block) := do
  let heads ← g.getHeadBlocks
  bfsFromTime g.blockMap minTime (bfsFuel g) heads [] []

/-- Sort relation used by `updates.sort((a, b) => a.timestamp - b.timestamp)`. -/
def tsLE (a b : DatabaseUpdate) : Prop := a.timestamp ≤ b.timestamp

instance : DecidableRel tsLE := fun a b =>
  inferInstanceAs (Decidable (a.timestamp ≤ b.timestamp))

instance : IsTotal DatabaseUpdate tsLE := ⟨fun a b => Int.le_total _ _⟩

instance : IsTrans DatabaseUpdate tsLE := ⟨fun _ _ _ => Int.le_trans⟩

/-- Stable ascending sort by timestamp (JavaScript `Array.prototype.sort` is
required to be stable; `List.insertionSort` is the stable sort with this
ordering: equal timestamps keep their concatenation order). -/
def sortByTimestamp (updates : List DatabaseUpdate) : List DatabaseUpdate :=
  updates.insertionSort tsLE

/-- Node state acted on by the sync procedures: the block graph plus the
document store reached through `onIncomingUpdates`
(`Database.applyIncomingUpdates`). -/
structure SyncNodeState where
  graph : BlockGraph
  store : DocStore

/-- Embedding of `integrateBlock` from `sync.ts`: read
`minTime = incomingBlock.data[0].timestamp` (accessing `data[0]` of an empty
array is a fault, embedded as an error), collect the affected local blocks
via `findBlocksFromTime`, append the incoming block, integrate it into the
graph, flatten the blocks' updates in that order, stable-sort by timestamp
and dispatch to `onIncomingUpdates` (`Database.applyIncomingUpdates`). -/
def Sync.integrateBlock (st : SyncNodeState) (incomingBlock : Block) :
    Except String SyncNodeState := do
  let minTime ← match incomingBlock.data with
    | [] => Except.error "incoming block has no updates"
    | u :: _ => Except.ok u.timestamp
  let localBlocks ← findBlocksFromTime minTime st.graph
  let localBlocks := localBlocks ++ [incomingBlock]
  let graph := st.graph.integrateBlock incomingBlock
  let updates := localBlocks.flatMap Block.data
  let store ← Database.applyIncomingUpdates st.store (sortByTimestamp updates)
  pure { graph := graph, store := store }

/-- Integrate a list of blocks, in order, into a node state (each block is
assumed deliverable, i.e. its `prevBlocks` are already integrated — the
"valid order" of the rebuild claims). -/
def Sync.runBlocks (st : SyncNodeState) (bs : List Block) :
    Except String SyncNodeState :=
  bs.foldlM Sync.integrateBlock st

/-- Empty replica: empty graph, empty document store. -/
def Sync.emptyNode : SyncNodeState :=
  { graph := BlockGraph.empty, store := emptyDocStore }

/-- Observer: integrate `bs` into an empty replica and report whether the
document `(collectionName, docId)` exists afterwards (`none` when the run
faulted). -/
def Sync.runDocExists (bs : List Block) (collectionName docId : String) :
    Option Bool :=
  match Sync.runBlocks Sync.emptyNode bs with
  | .ok st => some ((st.store collectionName docId).isSome)
  | .error _ => none

/-- Observer: value of one field of one document after a run. -/
def Sync.runDocField (bs : List Block) (collectionName docId k : String) :
    Option (Option (Option JsValue)) :=
  match Sync.runBlocks Sync.emptyNode bs with
  | .ok st => some ((st.store collectionName docId).map (fun d => d k))
  | .error _ => none

/-! Embedding of the broker handlers from `broker.ts` that the claims
mention.  Handlers run inside express; a synchronously thrown `Error` is
caught by express's default error handler, which responds with status 500.
An `Except.error` models a thrown error, `Except.ok` a normal return. -/

/-- Directory entry stored per node at check-in. -/
structure NodeDirectoryEntry where
  headBlocks : List Block
  time : Int
  lastSeen : Int
deriving DecidableEq, Repr

/-- Per-user broker state: the node directory, the set of node ids with an
installed pull registration (long-poll slot), and the per-node block-request
sets (a JavaScript object mapping nodeId to a `Set`; absent key means no
set). -/
structure BrokerUser where
  nodes : List (String × NodeDirectoryEntry)
  pullRegistrations : List String
  blockRequests : List (String × List String)
deriving DecidableEq, Repr

/-- Lookup of a node's block-request set (`userDetails.blockRequests[nodeId]`,
`none` when the property is absent). -/
def blockRequestsFor (st : BrokerUser) (nodeId : String) : Option (List String) :=
  (st.blockRequests.find? (fun kv => kv.1 == nodeId)).map (fun kv => kv.2)

/-- Replace the block-request set of one node. -/
def setBlockRequests (st : BrokerUser) (nodeId : String) (ids : List String) :
    BrokerUser :=
  { st with blockRequests :=
      st.blockRequests.map (fun kv => if kv.1 == nodeId then (kv.1, ids) else kv) }

/-- Payload delivered to a waiting pull registration (`IPushedData`). -/
structure PushedData where
  blocks : List Block
  fromNodeId : String
deriving DecidableEq, Repr

/-- Outcome of the `/push-blocks` handler: the new user state, the HTTP
status sent to the pusher, and the payload delivered to the waiting pull
response, if any. -/
structure PushOutcome where
  user : BrokerUser
  pusherStatus : Nat
  delivered : Option PushedData
deriving DecidableEq, Repr

/-- Embedding of the `/push-blocks` handler together with the pull-side
callback it may invoke (`broker.ts`).  When a registration exists for
`toNodeId` the callback runs: for every pushed block it evaluates
`userDetails.blockRequests[toNodeId].delete(block._id)` — when `toNodeId` has
no block-request set this is a property access on `undefined` and throws a
`TypeError` (the loop body does not run at all when `blocks` is empty); then
the registration is cleared and the data `{blocks, fromNodeId}` is delivered.
In every non-throwing path the handler then responds 200 to the pusher. -/
def Broker.pushBlocks (st : BrokerUser) (toNodeId fromNodeId : String)
    (blocks : List Block) : Except String PushOutcome := do
  if toNodeId ∈ st.pullRegistrations then
    let st' ←
      match blocks, blockRequestsFor st toNodeId with
      | [], _ => Except.ok st
      | _ :: _, some ids =>
        Except.ok (setBlockRequests st toNodeId
          (ids.filter (fun id => ¬ id ∈ blocks.map Block._id)))
      | _ :: _, none =>
        Except.error "TypeError: Cannot read properties of undefined (reading 'delete')"
    let st' := { st' with
      pullRegistrations := st'.pullRegistrations.filter (fun n => n ≠ toNodeId) }
    Except.ok { user := st'
                pusherStatus := 200
                delivered := some { blocks := blocks, fromNodeId := fromNodeId } }
  else
    Except.ok { user := st, pusherStatus := 200, delivered := none }

/-- Request body of `/check-in` (`ICheckInPayload`); fields the handler
guards on are optional to model a malformed body. -/
structure CheckInBody where
  nodeId : Option String
  headBlocks : Option (List Block)
  time : Option Int
deriving DecidableEq, Repr

/-- Embedding of the `/check-in` handler body for a request that passed the
`X-User-Id` middleware: missing `nodeId`, `headBlocks` or `time` throws;
otherwise the node's directory entry is upserted and the directory plus
`wantsData` is returned (the response content is not needed by the claims
and is summarized by the updated state). -/
def Broker.checkIn (st : BrokerUser) (body : CheckInBody) (now : Int) :
    Except String BrokerUser := do
  let some nodeId := body.nodeId
    | Except.error "Node ID is required."
  let some headBlocks := body.headBlocks
    | Except.error "Head blocks are required."
  let some time := body.time
    | Except.error "Time is required."
  let entry : NodeDirectoryEntry :=
    { headBlocks := headBlocks, time := time, lastSeen := now }
  Except.ok { st with nodes :=
    (if st.nodes.any (fun kv => kv.1 == nodeId) then
      st.nodes.map (fun kv => if kv.1 == nodeId then (kv.1, entry) else kv)
    else
      st.nodes ++ [(nodeId, entry)]) }

/-- HTTP status produced by a handler outcome: a normal return sends its
response (here always 200 or a JSON body with implicit 200); a thrown error
is turned into a 500 response by express's default error handler. -/
def handlerStatus {α : Type} : Except String α → Nat
  | .ok _ => 200
  | .error _ => 500

/-- Status of a `/check-in` request (the handler's JSON reply carries an
implicit 200). -/
def Broker.checkInStatus (st : BrokerUser) (body : CheckInBody) (now : Int) : Nat :=
  handlerStatus (Broker.checkIn st body now)

/-! Derived definitions used to state and prove the rebuild claims. -/

/-- Updates of a list of blocks, in block order then in-block order. -/
def allUpdates (bs : List Block) : List DatabaseUpdate := bs.flatMap Block.data

/-- First update timestamp of a block (`data[0].timestamp`; 0 when empty,
only used under a nonemptiness hypothesis). -/
def blockFirstTs (b : Block) : Int := (b.data.head?).elim 0 DatabaseUpdate.timestamp

/-- Last update timestamp of a block. -/
def blockLastTs (b : Block) : Int := (b.data.getLast?).elim 0 DatabaseUpdate.timestamp

/-- Integration order validity: every block's `prevBlocks` are ids of blocks
that appear earlier in the list (so each block is integrated only after all
of its `prevBlocks`), starting from the ids in `seen`. -/
def validOrderFrom (seen : List String) : List Block → Bool
  | [] => true
  | b :: rest =>
    b.prevBlocks.all (fun p => decide (p ∈ seen)) &&
      validOrderFrom (b._id :: seen) rest

/-- Validity of an integration order into an empty replica. -/
def validOrder (bs : List Block) : Bool := validOrderFrom [] bs

/-- Every block of the list carries exactly one update. -/
def singleUpdateBlocks (bs : List Block) : Prop := ∀ b ∈ bs, b.data.length = 1

/-- All update timestamps across the block list are pairwise distinct. -/
def distinctTimestamps (bs : List Block) : Prop :=
  ((allUpdates bs).map DatabaseUpdate.timestamp).Nodup

/-- Block ids are pairwise distinct. -/
def nodupBlockIds (bs : List Block) : Prop := (bs.map Block._id).Nodup

/-- Timestamps are monotone along the DAG: every block's updates are newer
than all updates of each of its `prevBlocks`. -/
def monotonePrevTimestamps (bs : List Block) : Prop :=
  ∀ b ∈ bs, ∀ p ∈ bs, p._id ∈ b.prevBlocks → blockLastTs p < blockFirstTs b

/-- Document store obtained by replaying all updates of the block list in
ascending (stable-sorted) timestamp order into an empty store, collection by
collection. -/
def canonicalStore (bs : List Block) : DocStore :=
  fun c => ((sortByTimestamp (allUpdates bs)).filter
    (fun u => u.collection == c)).foldl applyCollectionUpdate emptyCollectionStore

/-- Observer: document store after integrating `bs` into an empty replica. -/
def Sync.runStore (bs : List Block) : Option DocStore :=
  (Sync.runBlocks Sync.emptyNode bs).toOption.map (fun st => st.store)

/-- Reachability from the head ids by following `prevBlocks` edges. -/
inductive ReachableFrom (g : List Block) (headIds : List String) : Block → Prop where
  | head : ∀ x, x ∈ g → x._id ∈ headIds → ReachableFrom g headIds x
  | prev : ∀ x y, ReachableFrom g headIds y → x ∈ g → x._id ∈ y.prevBlocks →
      ReachableFrom g headIds x

/-- Reachability from the head ids through blocks whose last update is at
least `minTime` (the pruned walk `findBlocksFromTime` actually performs:
a block older than `minTime` is neither collected nor expanded). -/
inductive ReachableActive (g : List Block) (headIds : List String) (minTime : Int) :
    Block → Prop where
  | head : ∀ x, x ∈ g → x._id ∈ headIds →
      blockBeforeTime x minTime = Except.ok false →
      ReachableActive g headIds minTime x
  | prev : ∀ x y, ReachableActive g headIds minTime y → x ∈ g →
      x._id ∈ y.prevBlocks → blockBeforeTime x minTime = Except.ok false →
      ReachableActive g headIds minTime x

/-- Variant of `ReachableActive` whose base case is membership in the
resolved head-block list (the initial queue of the walk); equivalent to
`ReachableActive` when the block ids are duplicate-free. -/
inductive ReachActiveB (g : List Block) (heads : List Block) (minTime : Int) :
    Block → Prop where
  | head : ∀ x, x ∈ heads → blockBeforeTime x minTime = Except.ok false →
      ReachActiveB g heads minTime x
  | prev : ∀ x y, ReachActiveB g heads minTime y →
      x ∈ y.prevBlocks.filterMap (lookupBlock g) →
      blockBeforeTime x minTime = Except.ok false →
      ReachActiveB g heads minTime x

/-- Candidates that can legitimately sit in the walk's queue: initial heads
and resolvable parents of already-reached blocks. -/
def bfsCand (g : List Block) (heads : List Block) (minTime : Int) (x : Block) : Prop :=
  x ∈ heads ∨ ∃ y, ReachActiveB g heads minTime y ∧
    x ∈ y.prevBlocks.filterMap (lookupBlock g)

/-- Total `prevBlocks` weight of the blocks not yet visited; together with
the queue length this bounds the remaining work of the walk. -/
def pendingWeight (g : List Block) (visited : List String) : Nat :=
  ((g.filter (fun b => ¬ b._id ∈ visited)).map (fun b => b.prevBlocks.length)).sum

/-- Termination measure of the walk. -/
def bfsMeasure (g : List Block) (queue : List Block) (visited : List String) : Nat :=
  queue.length + pendingWeight g visited

/-! Helper functions for the document-store proofs. -/

/-- Fold of `applyCollectionUpdate` over a list of updates. -/
def collApply (cs : CollectionStore) (us : List DatabaseUpdate) : CollectionStore :=
  us.foldl applyCollectionUpdate cs

/-- Collectionwise description of `Database.applyIncomingUpdates` on inputs
where it cannot throw. -/
def pureDbApply (st : DocStore) (us : List DatabaseUpdate) : DocStore :=
  fun c => collApply (st c) (us.filter (fun u => u.collection == c))

/-- Effect of one update on one document slot. -/
def applyDocUpdate (x : Option Doc) (u : DatabaseUpdate) : Option Doc :=
  match u with
  | .field _ _ docId f v =>
    match x with
    | none => some (fun k => if k = f then some v else if k = "_id" then some docId else none)
    | some d => some (fun k => if k = f then some v else d k)
  | .delete _ _ _ => none

/-- Fold of `applyDocUpdate` over a list of updates. -/
def docApply (x : Option Doc) (us : List DatabaseUpdate) : Option Doc :=
  us.foldl applyDocUpdate x

/-- Field assignment performed by an update, if any. -/
def assignOf (u : DatabaseUpdate) (k : String) : Option JsValue :=
  match u with
  | .field _ _ _ f v => if k = f then some v else none
  | .delete _ _ _ => none

/-- Last assignment to field `k` in an update list (later updates win). -/
def lastAssign (us : List DatabaseUpdate) (k : String) : Option JsValue :=
  match us with
  | [] => none
  | u :: rest => (lastAssign rest k).or (assignOf u k)

/-- Whether the update is a delete. -/
def DatabaseUpdate.isDelete : DatabaseUpdate → Bool
  | .delete _ _ _ => true
  | .field _ _ _ _ _ => false

/-- Base document created for document id `i` (`{_id: i}` before the field
assignments of the creating update are merged in). -/
def baseDoc (i : String) : Doc := fun k => if k = "_id" then some i else none

/-! Concrete instances used by counterexamples and witnesses. -/

/-- Block "a" with no parents and no data. -/
def wBlockA : Block := { _id := "a", prevBlocks := [], data := [] }

/-- Block "b" on top of "a". -/
def wBlockB : Block := { _id := "b", prevBlocks := ["a"], data := [] }

/-- Graph that already contains block "a" as its head. -/
def wGraphA : BlockGraph := { blockMap := [wBlockA], headBlockIds := ["a"] }

/-- Storage contents after a crash: blocks "A" and "B" (with "B" built on
"A") are persisted and the head record lists only "B". -/
def wRestartStorage : GraphStorage :=
  { blocks := [wBlockA, wBlockB], headBlocksRecord := some ["B"] }

/-- Block "A" as persisted in `wRestartStorage`. -/
def wBlockCapA : Block := { _id := "A", prevBlocks := [], data := [] }

/-- Block "B" on top of "A" as persisted in `wRestartStorage`. -/
def wBlockCapB : Block := { _id := "B", prevBlocks := ["A"], data := [] }

/-- State after restart: `loadHeadBlocks` hydrated only the listed head "B";
"A" exists in storage but is not in the in-memory map. -/
def wRestartState : FullGraphState :=
  { graph := BlockGraph.loadHeadBlocks
      { blocks := [wBlockCapA, wBlockCapB], headBlocksRecord := some ["B"] }
    storage := { blocks := [wBlockCapA, wBlockCapB], headBlocksRecord := some ["B"] } }

/-- Check-in body with a missing `nodeId`. -/
def wBadCheckInBody : CheckInBody :=
  { nodeId := none, headBlocks := some [], time := some 1 }

/-- Check-in body with a missing `headBlocks`. -/
def wBadCheckInBody2 : CheckInBody :=
  { nodeId := some "n1", headBlocks := none, time := some 1 }

/-- Empty per-user broker state. -/
def wEmptyBrokerUser : BrokerUser :=
  { nodes := [], pullRegistrations := [], blockRequests := [] }

/-- Broker user state where node "B" holds a pull registration but has never
sent `/request-blocks`, so it has no block-request set. -/
def wBrokerUserNoRequests : BrokerUser :=
  { nodes := [], pullRegistrations := ["B"], blockRequests := [] }

/-- Broker user state where node "B" holds a pull registration and requested
blocks "a" and "b". -/
def wBrokerUserWithRequests : BrokerUser :=
  { nodes := [], pullRegistrations := ["B"], blockRequests := [("B", ["a", "b"])] }

/-- Counterexample blocks for the deterministic-rebuild claim: `cxBlockX`
spans timestamps 10..30, so the cutoff walk re-applies its old delete while
skipping `cxBlockW`, whose newer field update is then lost.  All three blocks
have no parents, so any order is a valid integration order. -/
def cxBlockW : Block :=
  { _id := "w", prevBlocks := [], data := [.field 20 "c" "d" "f" "v"] }

/-- Block carrying an old delete (ts 10) and a new field update (ts 30). -/
def cxBlockX : Block :=
  { _id := "x", prevBlocks := [],
    data := [.delete 10 "c" "d", .field 30 "c" "e" "g" "u"] }

/-- Block with a single field update at ts 25 on an unrelated document. -/
def cxBlockZ : Block :=
  { _id := "z", prevBlocks := [], data := [.field 25 "c" "h" "k" "q"] }

/-- Witness blocks for the amended deterministic-rebuild claim: two
independent single-update blocks with distinct timestamps. -/
def wBlockP1 : Block :=
  { _id := "p1", prevBlocks := [], data := [.field 1 "c" "d" "f" "A"] }

/-- Second independent single-update block. -/
def wBlockP2 : Block :=
  { _id := "p2", prevBlocks := [], data := [.field 2 "c" "d" "f" "B"] }

/-- Counterexample graph for the `findBlocksFromTime` claim: block "p" holds
a fresh update (ts 50) but sits behind head "h" whose only update is stale
(ts 5), so the pruned walk never reaches "p". -/
def cxBlockP : Block :=
  { _id := "p", prevBlocks := [], data := [.field 50 "c" "dp" "f" "vp"] }

/-- Stale head block on top of `cxBlockP`. -/
def cxBlockH : Block :=
  { _id := "h", prevBlocks := ["p"], data := [.field 5 "c" "dh" "g" "vh"] }

/-- Graph whose head is the stale block "h". -/
def cxGraphPH : BlockGraph := { blockMap := [cxBlockP, cxBlockH], headBlockIds := ["h"] }

/-- Scenario blocks for the delete-then-field claim: node A commits a Delete
of "d1" at ts 5. -/
def scBlockDel : Block := { _id := "a", prevBlocks := [], data := [.delete 5 "c" "d1"] }

/-- Node B commits a Field update setting `d1.f = "Z"` at ts 6. -/
def scBlockField : Block := { _id := "b", prevBlocks := [], data := [.field 6 "c" "d1" "f" "Z"] }

/-- Node A before receiving B's block: it ran `deleteOne("d1")` at ts 5
(subscribers notified, update handed to the engine, document deleted from
storage) and committed block "a". -/
def scNodeA : SyncNodeState :=
  { graph := (BlockGraph.empty.commitBlock "a" [.delete 5 "c" "d1"] (.ok ()) (.ok ())).graph
    store := (Collection.deleteOne "c" "d1" 5).foldl applyCollectionEvent emptyDocStore }

/-- Node B before receiving A's block: it ran `upsertOne("d1", {f: "Z"})` at
ts 6 and committed block "b". -/
def scNodeB : SyncNodeState :=
  { graph := (BlockGraph.empty.commitBlock "b" [.field 6 "c" "d1" "f" "Z"] (.ok ()) (.ok ())).graph
    store := (Collection.upsertOne "c" "d1" [("f", "Z")] 6 none).foldl applyCollectionEvent emptyDocStore }

/-- Field name of a `field` update (empty string for a delete). -/
def DatabaseUpdate.fieldNameOf : DatabaseUpdate → String
  | .field _ _ _ f _ => f
  | .delete _ _ _ => ""

/-- Observer for the scenario claims: integrate one incoming block into a
node state and report field `k` of document `(c, i)` (`none` when
integration faulted, `some none` when the document is absent). -/
def Sync.nodeDocField (st : SyncNodeState) (b : Block) (c i k : String) :
    Option (Option (Option JsValue)) :=
  match Sync.integrateBlock st b with
  | .ok st' => some ((st'.store c i).map (fun d => d k))
  | .error _ => none

/-- Block with an empty update list, as produced by committing an update
batch of length zero (`upsertOne` with an update object whose only key is
`id` emits no field updates, and `commitUpdates` commits the batch
unconditionally). -/
def cxBlockEmptyData : Block := { _id := "e", prevBlocks := [], data := [] }

/-- Graph whose single head block carries no updates: visiting it makes
`findBlocksFromTime` read `data[data.length - 1].timestamp` off `undefined`
and throw. -/
def cxGraphEmptyData : BlockGraph :=
  { blockMap := [cxBlockEmptyData], headBlockIds := ["e"] }

/-! Basic lemmas about the map and set embeddings. -/

theorem lookupBlock_isSome_iff {m : List Block} {id : String} :
    (lookupBlock m id).isSome = true ↔ id ∈ mapIds m := by
  unfold lookupBlock mapIds
  rw [List.find?_isSome]
  constructor
  · rintro ⟨x, hx, hid⟩
    exact List.mem_map.mpr ⟨x, hx, beq_iff_eq.mp hid⟩
  · intro h
    obtain ⟨x, hx, hid⟩ := List.mem_map.mp h
    exact ⟨x, hx, beq_iff_eq.mpr hid⟩

theorem hasBlockInMemory_iff {g : BlockGraph} {id : String} :
    g.hasBlockInMemory id = true ↔ id ∈ mapIds g.blockMap := by
  unfold BlockGraph.hasBlockInMemory
  exact lookupBlock_isSome_iff

theorem mapSet_of_not_mem {m : List Block} {b : Block}
    (h : b._id ∉ mapIds m) : mapSet m b = m ++ [b] := by
  unfold mapSet
  rw [if_neg]
  intro hany
  obtain ⟨x, hx, hid⟩ := List.any_eq_true.mp hany
  exact h (List.mem_map.mpr ⟨x, hx, beq_iff_eq.mp hid⟩)

theorem mapSet_has (m : List Block) (b : Block) :
    b._id ∈ mapIds (mapSet m b) := by
  unfold mapSet
  by_cases h : m.any (fun x => x._id == b._id)
  · rw [if_pos h]
    obtain ⟨x, hx, hid⟩ := List.any_eq_true.mp h
    refine List.mem_map.mpr ⟨b, ?_, rfl⟩
    refine List.mem_map.mpr ⟨x, hx, ?_⟩
    rw [if_pos hid]
  · rw [if_neg h]
    unfold mapIds
    rw [List.map_append]
    exact List.mem_append_right _ (List.mem_singleton.mpr rfl)

theorem mapIds_append (m : List Block) (b : Block) :
    mapIds (m ++ [b]) = mapIds m ++ [b._id] := by
  unfold mapIds
  rw [List.map_append]
  rfl

theorem referencedInMap_append {id : String} {m : List Block} {b : Block} :
    referencedInMap id (m ++ [b]) ↔ referencedInMap id m ∨ id ∈ b.prevBlocks := by
  unfold referencedInMap
  constructor
  · rintro ⟨c, hc, hid⟩
    rcases List.mem_append.mp hc with h | h
    · exact Or.inl ⟨c, h, hid⟩
    · rw [List.mem_singleton.mp h] at hid
      exact Or.inr hid
  · rintro (⟨c, hc, hid⟩ | h)
    · exact ⟨c, List.mem_append_left _ hc, hid⟩
    · exact ⟨b, List.mem_append_right _ (List.mem_singleton.mpr rfl), h⟩

theorem dedupFirstAux_eq_self {l seen : List String}
    (hnd : l.Nodup) (hdisj : ∀ x ∈ l, x ∉ seen) : dedupFirstAux seen l = l := by
  induction l generalizing seen with
  | nil => rfl
  | cons x xs ih =>
    unfold dedupFirstAux
    rw [if_neg (hdisj x (List.mem_cons_self x xs))]
    congr 1
    refine ih (List.Nodup.of_cons hnd) ?_
    intro y hy
    intro hmem
    rcases List.mem_cons.mp hmem with h | h
    · rw [h] at hy
      exact (List.nodup_cons.mp hnd).1 hy
    · exact hdisj y (List.mem_cons_of_mem _ hy) h

theorem dedupFirst_eq_self {l : List String} (hnd : l.Nodup) :
    dedupFirst l = l :=
  dedupFirstAux_eq_self hnd (by intro x _ h; exact absurd h (List.not_mem_nil x))

theorem setAdd_of_not_mem {l : List String} {x : String} (h : x ∉ l) :
    setAdd l x = l ++ [x] := by
  unfold setAdd
  rw [if_neg h]

/-! Head-correctness invariant (claim C2). -/

/-- Invariant carried through arbitrary valid operation sequences: the head
ids are exactly the unreferenced blocks, heads are duplicate-free, heads are
present in the map, and every referenced id is present in the map. -/
def headInvariant (g : BlockGraph) : Prop :=
  (∀ id, id ∈ g.headBlockIds ↔
    (id ∈ mapIds g.blockMap ∧ ¬ referencedInMap id g.blockMap)) ∧
  g.headBlockIds.Nodup ∧
  (∀ id ∈ g.headBlockIds, id ∈ mapIds g.blockMap) ∧
  (∀ b ∈ g.blockMap, ∀ p ∈ b.prevBlocks, p ∈ mapIds g.blockMap)

theorem headInvariant_empty : headInvariant BlockGraph.empty := by
  refine ⟨?_, List.nodup_nil, ?_, ?_⟩
  · intro id
    constructor
    · intro h; exact absurd h (List.not_mem_nil id)
    · rintro ⟨h, -⟩; exact absurd h (List.not_mem_nil id)
  · intro id h; exact absurd h (List.not_mem_nil id)
  · intro b hb; exact absurd hb (List.not_mem_nil b)

theorem headInvariant_commit {g : BlockGraph} {freshId : String}
    {data : List DatabaseUpdate}
    (hinv : headInvariant g)
    (hfresh : freshId ∉ mapIds g.blockMap)
    (hunref : ∀ b ∈ g.blockMap, freshId ∉ b.prevBlocks) :
    headInvariant (g.commitBlock freshId data (.ok ()) (.ok ())).graph := by
  obtain ⟨hiff, hnd, hsub, hclosed⟩ := hinv
  have hm : mapSet g.blockMap
      { _id := freshId, prevBlocks := g.getHeadBlockIds, data := data } =
      g.blockMap ++ [{ _id := freshId, prevBlocks := g.getHeadBlockIds, data := data }] :=
    mapSet_of_not_mem hfresh
  unfold BlockGraph.commitBlock
  simp only [hm]
  refine ⟨?_, List.nodup_singleton _, ?_, ?_⟩
  · intro id
    rw [mapIds_append, referencedInMap_append]
    constructor
    · intro h
      rw [List.mem_singleton.mp h]
      refine ⟨List.mem_append_right _ (List.mem_singleton.mpr rfl), ?_⟩
      rintro (⟨c, hc, hid⟩ | h2)
      · exact hunref c hc hid
      · exact hfresh (hsub _ h2)
    · rintro ⟨hmem, hnref⟩
      rcases List.mem_append.mp hmem with hold | hnew
      · exfalso
        by_cases hh : id ∈ g.headBlockIds
        · exact hnref (Or.inr hh)
        · have := (hiff id).not.mp hh
          rw [not_and_or, not_not] at this
          rcases this with h | h
          · exact h hold
          · exact hnref (Or.inl h)
      · exact hnew
  · intro id h
    rw [List.mem_singleton.mp h, mapIds_append]
    exact List.mem_append_right _ (List.mem_singleton.mpr rfl)
  · intro b hb p hp
    rw [mapIds_append]
    rcases List.mem_append.mp hb with hold | hnew
    · exact List.mem_append_left _ (hclosed b hold p hp)
    · rw [List.mem_singleton.mp hnew] at hp
      exact List.mem_append_left _ (hsub p hp)

theorem headInvariant_integrate {g : BlockGraph} {b : Block}
    (hinv : headInvariant g)
    (hprevs : ∀ p ∈ b.prevBlocks, p ∈ mapIds g.blockMap) :
    headInvariant (g.integrateBlock b) := by
  obtain ⟨hiff, hnd, hsub, hclosed⟩ := hinv
  unfold BlockGraph.integrateBlock
  by_cases hhas : g.hasBlockInMemory b._id = true
  · rw [if_pos hhas]
    exact ⟨hiff, hnd, hsub, hclosed⟩
  · rw [if_neg hhas]
    have hnotin : b._id ∉ mapIds g.blockMap := by
      intro h
      exact hhas (hasBlockInMemory_iff.mpr h)
    have hm := mapSet_of_not_mem hnotin
    have hdedup := dedupFirst_eq_self hnd
    have hnothead : b._id ∉ g.headBlockIds := fun h => hnotin (hsub _ h)
    have hfilter : b._id ∉ (g.headBlockIds.filter (fun h => decide (¬ h ∈ b.prevBlocks))) :=
      fun h => hnothead (List.mem_of_mem_filter h)
    have hset : setAdd ((dedupFirst g.headBlockIds).filter
        (fun h => decide (¬ h ∈ b.prevBlocks))) b._id =
        (g.headBlockIds.filter (fun h => decide (¬ h ∈ b.prevBlocks))) ++ [b._id] := by
      rw [hdedup]
      exact setAdd_of_not_mem hfilter
    simp only [hm]
    refine ⟨?_, ?_, ?_, ?_⟩
    · intro id
      show id ∈ setAdd _ _ ↔ _
      rw [hset, mapIds_append, referencedInMap_append, List.mem_append,
        List.mem_filter, List.mem_singleton]
      constructor
      · rintro (⟨hh, hnp⟩ | rfl)
        · have hnp' : id ∉ b.prevBlocks := of_decide_eq_true hnp
          obtain ⟨hmem, hnref⟩ := (hiff id).mp hh
          refine ⟨List.mem_append_left _ hmem, ?_⟩
          rintro (h | h)
          · exact hnref h
          · exact hnp' h
        · refine ⟨List.mem_append_right _ (List.mem_singleton.mpr rfl), ?_⟩
          rintro (⟨c, hc, hid⟩ | h)
          · exact hnotin (hclosed c hc _ hid)
          · exact hnotin (hprevs _ h)
      · rintro ⟨hmem, hnref⟩
        by_cases hid : id = b._id
        · exact Or.inr hid
        · left
          have hmem' : id ∈ mapIds g.blockMap := by
            rcases List.mem_append.mp hmem with h | h
            · exact h
            · exact absurd (List.mem_singleton.mp h) hid
          have hnp : id ∉ b.prevBlocks := fun h => hnref (Or.inr h)
          refine ⟨(hiff id).mpr ⟨hmem', fun h => hnref (Or.inl h)⟩, ?_⟩
          exact decide_eq_true hnp
    · show (setAdd _ _).Nodup
      rw [hset]
      refine List.Nodup.append (List.Nodup.filter _ hnd) (List.nodup_singleton _) ?_
      intro x hx hx2
      rw [List.mem_singleton.mp hx2] at hx
      exact hfilter hx
    · intro id h
      replace h : id ∈ _ := h
      rw [hset, List.mem_append, List.mem_singleton] at h
      rw [mapIds_append, List.mem_append, List.mem_singleton]
      rcases h with h | h
      · exact Or.inl (hsub _ (List.mem_of_mem_filter h))
      · exact Or.inr h
    · intro c hc p hp
      rw [mapIds_append, List.mem_append, List.mem_singleton]
      rcases List.mem_append.mp hc with h | h
      · exact Or.inl (hclosed c h p hp)
      · rw [List.mem_singleton.mp h] at hp
        exact Or.inl (hprevs p hp)

theorem headInvariant_execOps {g : BlockGraph} {ops : List GraphOp}
    (hinv : headInvariant g) (hvalid : validSeq g ops) :
    headInvariant (execOps g ops) := by
  induction ops generalizing g with
  | nil => exact hinv
  | cons op ops ih =>
    obtain ⟨hop, hrest⟩ := hvalid
    refine ih ?_ hrest
    cases op with
    | commitOp freshId data =>
      exact headInvariant_commit hinv hop.1 hop.2
    | integrateOp b =>
      exact headInvariant_integrate hinv hop

/-- Claim C2: after any sequence of `commitBlock` and `integrateBlock`
operations starting from an empty `BlockGraph` (each commit allocating a
fresh uuid, each integrated block's `prevBlocks` already present in the
graph), `headBlockIds` equals exactly the set of blocks in the graph that are
not referenced in any other graph block's `prevBlocks`. -/
theorem headBlockIds_head_correct (ops : List GraphOp)
    (hvalid : validSeq BlockGraph.empty ops) :
    ∀ id, id ∈ (execOps BlockGraph.empty ops).headBlockIds ↔
      (id ∈ mapIds (execOps BlockGraph.empty ops).blockMap ∧
       ¬ referencedInMap id (execOps BlockGraph.empty ops).blockMap) :=
  (headInvariant_execOps headInvariant_empty hvalid).1

/-- Witness for C2: a concrete valid sequence (commit "a", integrate "b" on
top of it, commit "c") whose head set is checked at the ids "a" and "c". -/
theorem headBlockIds_head_correct_witness :
    (("a" ∈ (execOps BlockGraph.empty
        [.commitOp "a" [], .integrateOp wBlockB, .commitOp "c" []]).headBlockIds) ↔
      ("a" ∈ mapIds (execOps BlockGraph.empty
        [.commitOp "a" [], .integrateOp wBlockB, .commitOp "c" []]).blockMap ∧
       ¬ referencedInMap "a" (execOps BlockGraph.empty
        [.commitOp "a" [], .integrateOp wBlockB, .commitOp "c" []]).blockMap)) :=
  headBlockIds_head_correct
    [.commitOp "a" [], .integrateOp wBlockB, .commitOp "c" []] (by decide) "a"

/-- Claim C3: integrating a block whose id is already present in the block
map is a no-op, and therefore integrating the same block twice leaves the
same in-memory state (block map and head set) as integrating it once. -/
theorem integrateBlock_idempotent (g : BlockGraph) (b : Block) :
    (g.hasBlockInMemory b._id = true → g.integrateBlock b = g) ∧
    (g.integrateBlock b).integrateBlock b = g.integrateBlock b := by
  have hnoop : ∀ g' : BlockGraph, g'.hasBlockInMemory b._id = true →
      g'.integrateBlock b = g' := by
    intro g' h
    unfold BlockGraph.integrateBlock
    rw [if_pos h]
  refine ⟨hnoop g, ?_⟩
  by_cases h : g.hasBlockInMemory b._id = true
  · rw [hnoop g h, hnoop g h]
  · have h2 : (g.integrateBlock b).hasBlockInMemory b._id = true := by
      rw [hasBlockInMemory_iff]
      unfold BlockGraph.integrateBlock
      rw [if_neg h]
      exact mapSet_has g.blockMap b
    exact hnoop _ h2

/-- Witness for C3: block "a" is already present in `wGraphA`, so
integrating it there is a no-op, and double integration of "b" equals single
integration. -/
theorem integrateBlock_idempotent_witness :
    (wGraphA.integrateBlock wBlockA = wGraphA) ∧
    (wGraphA.integrateBlock wBlockB).integrateBlock wBlockB =
      wGraphA.integrateBlock wBlockB :=
  ⟨(integrateBlock_idempotent wGraphA wBlockA).1 (by decide),
   (integrateBlock_idempotent wGraphA wBlockB).2⟩

/-- Counterexample for claim C5: `storeBlock` catches storage errors (it only
logs them), so `commitBlock` resolves even when the block write fails — the
operation does not resolve "only after both writes succeed".  Here the block
write fails yet the commit resolves. -/
theorem commitBlock_resolves_despite_failed_write :
    (BlockGraph.empty.commitBlock "n1" []
      (.error "disk full") (.ok ())).resolved = true := rfl

/-- Claim C5 (amended): `commitBlock` returns a block whose `prevBlocks`
equals the head ids current at the time of the call, leaves `headBlockIds`
equal to the single-element list of the freshly allocated id, issues both the
block write and the head-record write, and resolves once both writes have
settled — whether they succeeded or failed (failures are caught and logged
inside `storeBlock`/`storeHeadBlocks`). -/
theorem commitBlock_spec (g : BlockGraph) (freshId : String)
    (data : List DatabaseUpdate) (r1 r2 : Except String Unit) :
    (g.commitBlock freshId data r1 r2).block.prevBlocks = g.headBlockIds ∧
    (g.commitBlock freshId data r1 r2).graph.headBlockIds = [freshId] ∧
    (g.commitBlock freshId data r1 r2).issuedWrites =
      [.writeBlock (g.commitBlock freshId data r1 r2).block,
       .writeHeads [freshId]] ∧
    (g.commitBlock freshId data r1 r2).resolved = true := by
  refine ⟨rfl, rfl, rfl, ?_⟩
  cases r1 <;> cases r2 <;> rfl

/-! Claim C10: the presence check of `integrateBlock` consults only the
in-memory block map. -/

theorem setAdd_self_mem (l : List String) (x : String) : x ∈ setAdd l x := by
  unfold setAdd
  by_cases h : x ∈ l
  · rw [if_pos h]; exact h
  · rw [if_neg h]; exact List.mem_append_right _ (List.mem_singleton.mpr rfl)

/-- Claim C10: `integrateBlock` decides "already present" using only the
in-memory block map — for every block `b` not loaded into memory (even one
that exists in persistent storage, as after a restart where `loadHeadBlocks`
hydrates only the listed head blocks), `integrateBlock b` is not a no-op: it
re-inserts `b` into the map and adds `b`'s id back to the head set, so the
head set can come to include a block that has successors in the stored
graph. -/
theorem integrateBlock_checks_memory_only (st : FullGraphState) (b : Block)
    (h : st.graph.hasBlockInMemory b._id = false) :
    (st.integrateBlock b).graph.hasBlockInMemory b._id = true ∧
    b._id ∈ (st.integrateBlock b).graph.headBlockIds := by
  unfold FullGraphState.integrateBlock
  rw [if_neg (by rw [h]; exact Bool.false_ne_true)]
  constructor
  · show (st.graph.integrateBlock b).hasBlockInMemory b._id = true
    rw [hasBlockInMemory_iff]
    unfold BlockGraph.integrateBlock
    rw [if_neg (by rw [h]; exact Bool.false_ne_true)]
    exact mapSet_has st.graph.blockMap b
  · show b._id ∈ (st.graph.integrateBlock b).headBlockIds
    unfold BlockGraph.integrateBlock
    rw [if_neg (by rw [h]; exact Bool.false_ne_true)]
    exact setAdd_self_mem _ _

/-- Witness for C10, the restart scenario: storage holds "A" and its
successor "B", the head record lists only "B", so after `loadHeadBlocks`
only "B" is in memory.  Integrating "A" again re-inserts it and the head set
becomes {"B", "A"} although "A" has the successor "B" in the stored graph. -/
theorem integrateBlock_checks_memory_only_witness :
    wRestartState.graph.hasBlockInMemory "A" = false ∧
    (wRestartState.integrateBlock wBlockCapA).graph.hasBlockInMemory "A" = true ∧
    "A" ∈ (wRestartState.integrateBlock wBlockCapA).graph.headBlockIds ∧
    (wRestartState.integrateBlock wBlockCapA).graph.headBlockIds = ["B", "A"] ∧
    wBlockCapB ∈ wRestartState.storage.blocks ∧ "A" ∈ wBlockCapB.prevBlocks :=
  ⟨by decide,
   (integrateBlock_checks_memory_only wRestartState wBlockCapA (by decide)).1,
   (integrateBlock_checks_memory_only wRestartState wBlockCapA (by decide)).2,
   by decide, by decide, by decide⟩

/-! Claim C9: malformed `/check-in` bodies. -/

/-- Counterexample for claim C9: a `/check-in` request with a valid user but
missing `nodeId` makes the handler throw (`Error("Node ID is required.")`);
express's default error handler turns the thrown error into a 500 response,
not the 400 the claim states. -/
theorem checkIn_missing_nodeId_is_500 :
    Broker.checkIn wEmptyBrokerUser wBadCheckInBody 100 =
      Except.error "Node ID is required." ∧
    Broker.checkInStatus wEmptyBrokerUser wBadCheckInBody 100 = 500 := by
  exact ⟨rfl, rfl⟩

/-- Claim C9 (amended): for every `/check-in` request carrying a valid
`X-User-Id` but missing `nodeId` or missing `headBlocks`, the handler throws
and the broker responds 500 (express's default error status), not 400. -/
theorem checkIn_malformed_responds_500 (st : BrokerUser) (body : CheckInBody)
    (now : Int) (h : body.nodeId = none ∨ body.headBlocks = none) :
    Broker.checkInStatus st body now = 500 := by
  unfold Broker.checkInStatus Broker.checkIn
  rcases h with h | h
  · rw [h]
    rfl
  · cases hn : body.nodeId with
    | none => rfl
    | some nodeId => rw [h]; rfl

/-- Witness for C9 at a body missing `headBlocks`. -/
theorem checkIn_malformed_responds_500_witness :
    (wBadCheckInBody2.nodeId = none ∨ wBadCheckInBody2.headBlocks = none) ∧
    Broker.checkInStatus wEmptyBrokerUser wBadCheckInBody2 7 = 500 :=
  ⟨Or.inr rfl, checkIn_malformed_responds_500 wEmptyBrokerUser wBadCheckInBody2 7 (Or.inr rfl)⟩

/-! Claim C8: the `/push-blocks` handler. -/

theorem findReq_update (l : List (String × List String)) (n : String)
    (ids' : List String)
    (h : (l.find? (fun kv => kv.1 == n)).isSome = true) :
    ((l.map (fun kv => if kv.1 == n then (kv.1, ids') else kv)).find?
      (fun kv => kv.1 == n)).map (fun kv => kv.2) = some ids' := by
  induction l with
  | nil => simp [List.find?] at h
  | cons hd tl ih =>
    by_cases hk : (hd.1 == n) = true
    · rw [List.map_cons, if_pos hk]
      simp [List.find?, hk]
    · have hkf : (hd.1 == n) = false := eq_false_of_ne_true hk
      rw [List.map_cons, if_neg hk]
      simp only [List.find?, hkf]
      refine ih ?_
      simp only [List.find?, hkf] at h
      exact h

theorem blockRequestsFor_setBlockRequests {st : BrokerUser} {n : String}
    {ids ids' : List String} (h : blockRequestsFor st n = some ids) :
    blockRequestsFor (setBlockRequests st n ids') n = some ids' := by
  unfold blockRequestsFor setBlockRequests
  refine findReq_update _ _ _ ?_
  unfold blockRequestsFor at h
  obtain ⟨kv, hfind, -⟩ := Option.map_eq_some'.mp h
  rw [hfind]
  rfl

/-- Counterexample for claim C8: node "B" holds a pull registration but has
no block-request set (it never sent `/request-blocks`).  Pushing a nonempty
block list to it makes the callback evaluate
`userDetails.blockRequests["B"].delete(...)` on `undefined`, which throws, so
the broker does not respond 200 to the pusher (express answers 500). -/
theorem pushBlocks_throws_without_request_set :
    Broker.pushBlocks wBrokerUserNoRequests "B" "A" [wBlockA] =
      Except.error "TypeError: Cannot read properties of undefined (reading 'delete')" ∧
    handlerStatus (Broker.pushBlocks wBrokerUserNoRequests "B" "A" [wBlockA]) = 500 :=
  ⟨rfl, rfl⟩

/-- Claim C8 (amended): on `/push-blocks`, (1) without a registration for
`toNodeId` the broker drops the blocks and responds 200; (2) with a
registration and an empty block list the registration is fulfilled with
`{blocks, fromNodeId}` and the broker responds 200; (3) with a registration
and an existing block-request set, every delivered block's id is removed
from `toNodeId`'s set, the registration is fulfilled and the broker responds
200; but (4) with a registration, a nonempty block list and no block-request
set for `toNodeId`, the callback throws and no 200 is sent. -/
theorem pushBlocks_spec (st : BrokerUser) (toNodeId fromNodeId : String)
    (blocks : List Block) :
    (toNodeId ∉ st.pullRegistrations →
      Broker.pushBlocks st toNodeId fromNodeId blocks =
        .ok { user := st, pusherStatus := 200, delivered := none }) ∧
    (toNodeId ∈ st.pullRegistrations → blocks = [] →
      Broker.pushBlocks st toNodeId fromNodeId blocks =
        .ok { user := { st with pullRegistrations :=
                st.pullRegistrations.filter (fun n => n ≠ toNodeId) }
              pusherStatus := 200
              delivered := some { blocks := blocks, fromNodeId := fromNodeId } }) ∧
    (∀ ids, toNodeId ∈ st.pullRegistrations → blocks ≠ [] →
      blockRequestsFor st toNodeId = some ids →
      Broker.pushBlocks st toNodeId fromNodeId blocks =
        .ok { user := { setBlockRequests st toNodeId
                  (ids.filter (fun id => ¬ id ∈ blocks.map Block._id)) with
                pullRegistrations :=
                  st.pullRegistrations.filter (fun n => n ≠ toNodeId) }
              pusherStatus := 200
              delivered := some { blocks := blocks, fromNodeId := fromNodeId } }) ∧
    (toNodeId ∈ st.pullRegistrations → blocks ≠ [] →
      blockRequestsFor st toNodeId = none →
      Broker.pushBlocks st toNodeId fromNodeId blocks =
        .error "TypeError: Cannot read properties of undefined (reading 'delete')") := by
  refine ⟨?_, ?_, ?_, ?_⟩
  · intro hreg
    unfold Broker.pushBlocks
    rw [if_neg hreg]
  · intro hreg hblocks
    unfold Broker.pushBlocks
    rw [if_pos hreg]
    subst hblocks
    rfl
  · intro ids hreg hblocks hbr
    unfold Broker.pushBlocks
    rw [if_pos hreg]
    cases blocks with
    | nil => exact absurd rfl hblocks
    | cons b rest =>
      rw [hbr]
      rfl
  · intro hreg hblocks hbr
    unfold Broker.pushBlocks
    rw [if_pos hreg]
    cases blocks with
    | nil => exact absurd rfl hblocks
    | cons b rest =>
      rw [hbr]
      rfl

/-- Witness for C8 at a state where node "B" requested blocks "a" and "b"
and holds a registration; pushing block "a" delivers it, removes "a" from
the request set and responds 200. -/
theorem pushBlocks_spec_witness :
    Broker.pushBlocks wBrokerUserWithRequests "B" "A" [wBlockA] =
      .ok { user := { nodes := [], pullRegistrations := [],
                      blockRequests := [("B", ["b"])] }
            pusherStatus := 200
            delivered := some { blocks := [wBlockA], fromNodeId := "A" } } := by
  have h := (pushBlocks_spec wBrokerUserWithRequests "B" "A" [wBlockA]).2.2.1
    ["a", "b"] (by decide) (by decide) (by decide)
  exact h.trans rfl

/-! Claim C7: `Collection.upsertOne`. -/

/-- Claim C7: `upsertOne` builds exactly one `field` update per field of the
partial document except `_id` (in key order, timestamped with the wall
clock), and performs in order: (1) notify subscribers with those updates,
(2) hand them to `onOutgoingUpdates` (the sync engine), (3) fetch-merge the
existing document with the partial and write it back — so subscribers
observe the updates before the sync engine does, and the storage write comes
last. -/
theorem upsertOne_spec (c i : String) (update : List (String × JsValue))
    (now : Int) (existing : Option Doc) :
    Collection.upsertOne c i update now existing =
      [ .notifySubscribers (upsertUpdates c i update now),
        .outgoingUpdates (upsertUpdates c i update now),
        .storeDocument c i (upsertMergedDoc i update existing) ] ∧
    (∀ u ∈ upsertUpdates c i update now,
      u.timestamp = now ∧ u.collection = c ∧ u.docId = i ∧ u.isDelete = false) ∧
    (upsertUpdates c i update now).map DatabaseUpdate.fieldNameOf =
      (update.map Prod.fst).filter (fun k => k ≠ "_id") ∧
    (∀ kv ∈ update, kv.1 ≠ "_id" →
      DatabaseUpdate.field now c i kv.1 kv.2 ∈ upsertUpdates c i update now) ∧
    (∀ k, upsertMergedDoc i update existing k =
      (partialLookup update k).or
        (match existing with | some d => d k | none => baseDoc i k)) := by
  refine ⟨rfl, ?_, ?_, ?_, ?_⟩
  · intro u hu
    obtain ⟨kv, hkv, rfl⟩ := List.mem_map.mp hu
    exact ⟨rfl, rfl, rfl, rfl⟩
  · unfold upsertUpdates
    induction update with
    | nil => rfl
    | cons kv tl ih =>
      by_cases hk : kv.1 ≠ "_id"
      · simp only [List.filter, List.map, decide_eq_true hk]
        simp only [DatabaseUpdate.fieldNameOf]
        rw [ih]
      · simp only [List.filter, List.map, decide_eq_false hk]
        exact ih
  · intro kv hkv hne
    unfold upsertUpdates
    exact List.mem_map.mpr ⟨kv, List.mem_filter.mpr ⟨hkv, decide_eq_true hne⟩, rfl⟩
  · intro k
    cases existing with
    | none =>
      cases hp : partialLookup update k with
      | none => simp [upsertMergedDoc, hp, Option.or, baseDoc]
      | some v => simp [upsertMergedDoc, hp, Option.or]
    | some d =>
      cases hp : partialLookup update k with
      | none => simp [upsertMergedDoc, hp, Option.or]
      | some v => simp [upsertMergedDoc, hp, Option.or]

/-! Claim C6: a later `field` update re-creates a previously deleted
document. -/

/-- Claim C6: Delete is not a tombstone.  Node A deleted document "d1" at
ts 5 (block "a"); node B set `d1.f = "Z"` at ts 6 (block "b").  After each
node integrates the other's block (updates replayed in timestamp order), the
document exists on both nodes as `{_id: "d1", f: "Z"}`: the later field
update supersedes the delete. -/
theorem delete_then_field_resurrects :
    Sync.nodeDocField scNodeA scBlockField "c" "d1" "f" = some (some (some "Z")) ∧
    Sync.nodeDocField scNodeA scBlockField "c" "d1" "_id" = some (some (some "d1")) ∧
    Sync.nodeDocField scNodeB scBlockDel "c" "d1" "f" = some (some (some "Z")) ∧
    Sync.nodeDocField scNodeB scBlockDel "c" "d1" "_id" = some (some (some "d1")) :=
  ⟨rfl, rfl, rfl, rfl⟩

/-! Lemmas on block lookup and the walk's measure. -/

theorem lookup_mem {m : List Block} {i : String} {b : Block}
    (h : lookupBlock m i = some b) : b ∈ m :=
  List.mem_of_find?_eq_some h

theorem lookup_id {m : List Block} {i : String} {b : Block}
    (h : lookupBlock m i = some b) : b._id = i := by
  have hpred := List.find?_some h
  exact beq_iff_eq.mp hpred

theorem blocks_id_inj {m : List Block} (hnodup : (mapIds m).Nodup)
    {x y : Block} (hx : x ∈ m) (hy : y ∈ m) (h : x._id = y._id) : x = y :=
  List.inj_on_of_nodup_map hnodup hx hy h

theorem lookup_some_iff {m : List Block} (hnodup : (mapIds m).Nodup)
    {i : String} {x : Block} :
    lookupBlock m i = some x ↔ x ∈ m ∧ x._id = i := by
  constructor
  · intro h
    exact ⟨lookup_mem h, lookup_id h⟩
  · rintro ⟨hx, rfl⟩
    have hs : (lookupBlock m x._id).isSome = true :=
      lookupBlock_isSome_iff.mpr (List.mem_map.mpr ⟨x, hx, rfl⟩)
    obtain ⟨y, hy⟩ := Option.isSome_iff_exists.mp hs
    rw [hy]
    exact congrArg some (blocks_id_inj hnodup (lookup_mem hy) hx (lookup_id hy))

theorem mem_of_resolvedPrev {g : List Block} {y x : Block}
    (h : x ∈ y.prevBlocks.filterMap (lookupBlock g)) : x ∈ g := by
  obtain ⟨i, _, hlook⟩ := List.mem_filterMap.mp h
  exact lookup_mem hlook

theorem reachActiveB_mem {g heads : List Block} {minTime : Int}
    (hheads : ∀ x ∈ heads, x ∈ g) {x : Block}
    (h : ReachActiveB g heads minTime x) : x ∈ g := by
  induction h with
  | head x hx _ => exact hheads x hx
  | prev x y _ hx _ _ => exact mem_of_resolvedPrev hx

theorem reachActiveB_not_before {g heads : List Block} {minTime : Int}
    {x : Block} (h : ReachActiveB g heads minTime x) :
    blockBeforeTime x minTime = Except.ok false := by
  cases h with
  | head _ _ hb => exact hb
  | prev _ _ _ _ hb => exact hb

theorem pendingWeight_mono {g : List Block} {i : String} {visited : List String} :
    pendingWeight g (i :: visited) ≤ pendingWeight g visited := by
  unfold pendingWeight
  induction g with
  | nil => exact Nat.le_refl _
  | cons b tl ih =>
    by_cases hb : b._id ∈ visited
    · have h1 : (decide (¬ b._id ∈ (i :: visited))) = false := by
        simp [List.mem_cons, hb]
      have h2 : (decide (¬ b._id ∈ visited)) = false := by simp [hb]
      simp only [List.filter, h1, h2]
      exact ih
    · by_cases hbi : b._id = i
      · have h1 : (decide (¬ b._id ∈ (i :: visited))) = false := by
          simp [List.mem_cons, hbi]
        have h2 : (decide (¬ b._id ∈ visited)) = true := by simp [hb]
        simp only [List.filter, h1, h2, List.map, List.sum_cons]
        exact Nat.le_trans ih (Nat.le_add_left _ _)
      · have h1 : (decide (¬ b._id ∈ (i :: visited))) = true := by
          simp [List.mem_cons, hbi, hb]
        have h2 : (decide (¬ b._id ∈ visited)) = true := by simp [hb]
        simp only [List.filter, h1, h2, List.map, List.sum_cons]
        exact Nat.add_le_add_left ih _

theorem pendingWeight_drop {g : List Block} {x : Block} {visited : List String}
    (hx : x ∈ g) (hnv : x._id ∉ visited) :
    pendingWeight g (x._id :: visited) + x.prevBlocks.length ≤
      pendingWeight g visited := by
  unfold pendingWeight
  induction g with
  | nil => exact absurd hx (List.not_mem_nil x)
  | cons b tl ih =>
    rcases List.mem_cons.mp hx with heq | hxtl
    · subst heq
      have h1 : (decide (¬ x._id ∈ (x._id :: visited))) = false := by simp
      have h2 : (decide (¬ x._id ∈ visited)) = true := by simp [hnv]
      simp only [List.filter, h1, h2, List.map, List.sum_cons]
      rw [Nat.add_comm]
      have hmono := @pendingWeight_mono tl x._id visited
      unfold pendingWeight at hmono
      exact Nat.add_le_add_left hmono _
    · by_cases hb : (decide (¬ b._id ∈ (x._id :: visited))) = true
      · have h2 : (decide (¬ b._id ∈ visited)) = true := by
          rcases of_decide_eq_true hb with h
          simp only [List.mem_cons, not_or] at h
          simp [h.2]
        simp only [List.filter, hb, h2, List.map, List.sum_cons]
        rw [Nat.add_assoc]
        exact Nat.add_le_add_left (ih hxtl) _
      · have hb' : (decide (¬ b._id ∈ (x._id :: visited))) = false :=
          eq_false_of_ne_true hb
        by_cases h2 : (decide (¬ b._id ∈ visited)) = true
        · simp only [List.filter, hb', h2, List.map, List.sum_cons]
          refine Nat.le_trans (ih hxtl) (Nat.le_add_left _ _)
        · have h2' : (decide (¬ b._id ∈ visited)) = false := eq_false_of_ne_true h2
          simp only [List.filter, hb', h2']
          exact ih hxtl

theorem pendingWeight_nil_visited (g : List Block) :
    pendingWeight g [] = (g.map (fun b => b.prevBlocks.length)).sum := by
  unfold pendingWeight
  congr 1
  congr 1
  apply List.filter_eq_self.mpr
  intro b _
  simp

/-! Lemmas on `resolveHeads`. -/

theorem resolveHeads_ok_mem {m : List Block} {ids : List String} {hb : List Block}
    (h : resolveHeads m ids = .ok hb) :
    ∀ x ∈ hb, ∃ i ∈ ids, lookupBlock m i = some x := by
  induction ids generalizing hb with
  | nil =>
    cases h
    intro x hx
    exact absurd hx (List.not_mem_nil x)
  | cons i ids ih =>
    unfold resolveHeads at h
    cases hlook : lookupBlock m i with
    | none => rw [hlook] at h; cases h
    | some b =>
      rw [hlook] at h
      cases hrest : resolveHeads m ids with
      | error e => rw [hrest] at h; cases h
      | ok bs =>
        rw [hrest] at h
        cases h
        intro x hx
        rcases List.mem_cons.mp hx with rfl | hxs
        · exact ⟨i, List.mem_cons_self i ids, hlook⟩
        · obtain ⟨j, hj, hjl⟩ := ih hrest x hxs
          exact ⟨j, List.mem_cons_of_mem _ hj, hjl⟩

theorem resolveHeads_ok_forall {m : List Block} {ids : List String} {hb : List Block}
    (h : resolveHeads m ids = .ok hb) :
    ∀ i ∈ ids, ∃ x ∈ hb, lookupBlock m i = some x := by
  induction ids generalizing hb with
  | nil =>
    intro i hi
    exact absurd hi (List.not_mem_nil i)
  | cons j ids ih =>
    unfold resolveHeads at h
    cases hlook : lookupBlock m j with
    | none => rw [hlook] at h; cases h
    | some b =>
      rw [hlook] at h
      cases hrest : resolveHeads m ids with
      | error e => rw [hrest] at h; cases h
      | ok bs =>
        rw [hrest] at h
        cases h
        intro i hi
        rcases List.mem_cons.mp hi with rfl | his
        · exact ⟨b, List.mem_cons_self b bs, hlook⟩
        · obtain ⟨x, hx, hxl⟩ := ih hrest i his
          exact ⟨x, List.mem_cons_of_mem _ hx, hxl⟩

theorem resolveHeads_isOk {m : List Block} {ids : List String}
    (h : ∀ i ∈ ids, i ∈ mapIds m) :
    ∃ hb, resolveHeads m ids = .ok hb := by
  induction ids with
  | nil => exact ⟨[], rfl⟩
  | cons i ids ih =>
    have hs : (lookupBlock m i).isSome = true :=
      lookupBlock_isSome_iff.mpr (h i (List.mem_cons_self i ids))
    obtain ⟨b, hb⟩ := Option.isSome_iff_exists.mp hs
    obtain ⟨bs, hbs⟩ := ih (fun j hj => h j (List.mem_cons_of_mem _ hj))
    refine ⟨b :: bs, ?_⟩
    unfold resolveHeads
    rw [hb, hbs]
    rfl

/-! Total-correctness of the walk `bfsFromTime`. -/

theorem bfs_loop (g : List Block) (minT : Int) (heads : List Block)
    (hnodup : (mapIds g).Nodup)
    (hdata : ∀ z ∈ g, z.data ≠ []) :
    ∀ (fuel : Nat) (queue : List Block) (visited : List String) (acc : List Block),
      bfsMeasure g queue visited < fuel →
      (∀ x ∈ queue, x ∈ g) →
      (∀ x ∈ queue, bfsCand g heads minT x) →
      (∀ x ∈ acc, x._id ∈ visited) →
      acc.Nodup →
      (∀ z ∈ g, z._id ∈ visited → blockBeforeTime z minT = Except.ok false →
        z ∈ acc ∧ ∀ p ∈ z.prevBlocks.filterMap (lookupBlock g),
          p._id ∈ visited ∨ p ∈ queue) →
      ∃ (res : List Block) (visitedF : List String),
        bfsFromTime g minT fuel queue visited acc = .ok res ∧
        res.Nodup ∧
        (∀ x ∈ res, x ∈ acc ∨ ReachActiveB g heads minT x) ∧
        (∀ x ∈ acc, x ∈ res) ∧
        (∀ x ∈ res, x._id ∈ visitedF) ∧
        (∀ i ∈ visited, i ∈ visitedF) ∧
        (∀ x ∈ queue, x._id ∈ visitedF) ∧
        (∀ z ∈ g, z._id ∈ visitedF → blockBeforeTime z minT = Except.ok false →
          z ∈ res ∧ ∀ p ∈ z.prevBlocks.filterMap (lookupBlock g),
            p._id ∈ visitedF) := by
  intro fuel
  induction fuel with
  | zero =>
    intro queue visited acc hfuel _ _ _ _ _
    exact absurd hfuel (Nat.not_lt_zero _)
  | succ fuel ih =>
    intro queue visited acc hfuel hqg hqc hacc haccnd hinv3
    cases queue with
    | nil =>
      refine ⟨acc, visited, rfl, haccnd, ?_, ?_, ?_, ?_, ?_, ?_⟩
      · intro x hx; exact Or.inl hx
      · intro x hx; exact hx
      · intro x hx; exact hacc x hx
      · intro i hi; exact hi
      · intro x hx; exact absurd hx (List.not_mem_nil x)
      · intro z hz hzv hzb
        obtain ⟨hza, hzp⟩ := hinv3 z hz hzv hzb
        refine ⟨hza, fun p hp => ?_⟩
        rcases hzp p hp with h | h
        · exact h
        · exact absurd h (List.not_mem_nil p)
    | cons x0 queue' =>
      have hx0g : x0 ∈ g := hqg x0 (List.mem_cons_self _ _)
      by_cases hv : x0._id ∈ visited
      · -- already visited: skip
        have hfuel' : bfsMeasure g queue' visited < fuel := by
          unfold bfsMeasure at hfuel ⊢
          simp only [List.length_cons] at hfuel
          omega
        obtain ⟨res, vF, hrun, hnd, h2, h3, h4, h5, h6, h7⟩ :=
          ih queue' visited acc hfuel'
            (fun x hx => hqg x (List.mem_cons_of_mem _ hx))
            (fun x hx => hqc x (List.mem_cons_of_mem _ hx))
            hacc
            haccnd
            (by
              intro z hz hzv hzb
              obtain ⟨hza, hzp⟩ := hinv3 z hz hzv hzb
              refine ⟨hza, fun p hp => ?_⟩
              rcases hzp p hp with h | h
              · exact Or.inl h
              · rcases List.mem_cons.mp h with rfl | h
                · exact Or.inl hv
                · exact Or.inr h)
        refine ⟨res, vF, ?_, hnd, h2, h3, h4, h5, ?_, h7⟩
        · simp only [bfsFromTime]
          rw [if_pos hv]
          exact hrun
        · intro x hx
          rcases List.mem_cons.mp hx with rfl | hx
          · exact h5 _ hv
          · exact h6 x hx
      · have hx0ne : x0.data ≠ [] := hdata x0 hx0g
        obtain ⟨v, hval⟩ : ∃ v, blockBeforeTime x0 minT = Except.ok v := by
          unfold blockBeforeTime
          cases hl : x0.data.getLast? with
          | none => exact absurd (List.getLast?_eq_none_iff.mp hl) hx0ne
          | some u => exact ⟨decide (u.timestamp < minT), rfl⟩
        cases v with
        | true =>
          -- older than the cutoff: mark visited, do not collect or expand
          have hfuel' : bfsMeasure g queue' (x0._id :: visited) < fuel := by
            have hmono := @pendingWeight_mono g x0._id visited
            unfold bfsMeasure at hfuel ⊢
            simp only [List.length_cons] at hfuel
            omega
          obtain ⟨res, vF, hrun, hnd, h2, h3, h4, h5, h6, h7⟩ :=
            ih queue' (x0._id :: visited) acc hfuel'
              (fun x hx => hqg x (List.mem_cons_of_mem _ hx))
              (fun x hx => hqc x (List.mem_cons_of_mem _ hx))
              (fun x hx => List.mem_cons_of_mem _ (hacc x hx))
              haccnd
              (by
                intro z hz hzv hzb
                rcases List.mem_cons.mp hzv with hzid | hzv
                · exfalso
                  have hzx : z = x0 := blocks_id_inj hnodup hz hx0g hzid
                  rw [hzx] at hzb
                  rw [hzb] at hval
                  exact Bool.false_ne_true (Except.ok.inj hval)
                · obtain ⟨hza, hzp⟩ := hinv3 z hz hzv hzb
                  refine ⟨hza, fun p hp => ?_⟩
                  rcases hzp p hp with h | h
                  · exact Or.inl (List.mem_cons_of_mem _ h)
                  · rcases List.mem_cons.mp h with rfl | h
                    · exact Or.inl (List.mem_cons_self _ _)
                    · exact Or.inr h)
          refine ⟨res, vF, ?_, hnd, h2, h3, h4, ?_, ?_, h7⟩
          · simp only [bfsFromTime]
            rw [if_neg hv, hval]
            exact hrun
          · intro i hi
            exact h5 i (List.mem_cons_of_mem _ hi)
          · intro x hx
            rcases List.mem_cons.mp hx with rfl | hx
            · exact h5 _ (List.mem_cons_self _ _)
            · exact h6 x hx
        | false =>
          -- new active block: collect it and expand its parents
          have hbf : blockBeforeTime x0 minT = Except.ok false := hval
          have hra : ReachActiveB g heads minT x0 := by
            rcases hqc x0 (List.mem_cons_self _ _) with hh | ⟨y, hy, hp⟩
            · exact .head x0 hh hbf
            · exact .prev x0 y hy hp hbf
          have hfuel' : bfsMeasure g
              (queue' ++ x0.prevBlocks.filterMap (lookupBlock g))
              (x0._id :: visited) < fuel := by
            have hdrop := pendingWeight_drop hx0g hv
            have hlen : (x0.prevBlocks.filterMap (lookupBlock g)).length ≤
                x0.prevBlocks.length := List.length_filterMap_le _ _
            unfold bfsMeasure at hfuel ⊢
            rw [List.length_append]
            simp only [List.length_cons] at hfuel
            omega
          obtain ⟨res, vF, hrun, hnd, h2, h3, h4, h5, h6, h7⟩ :=
            ih (queue' ++ x0.prevBlocks.filterMap (lookupBlock g))
              (x0._id :: visited) (acc ++ [x0]) hfuel'
              (by
                intro x hx
                rcases List.mem_append.mp hx with hx | hx
                · exact hqg x (List.mem_cons_of_mem _ hx)
                · exact mem_of_resolvedPrev hx)
              (by
                intro x hx
                rcases List.mem_append.mp hx with hx | hx
                · exact hqc x (List.mem_cons_of_mem _ hx)
                · exact Or.inr ⟨x0, hra, hx⟩)
              (by
                intro x hx
                rcases List.mem_append.mp hx with hx | hx
                · exact List.mem_cons_of_mem _ (hacc x hx)
                · rw [List.mem_singleton.mp hx]
                  exact List.mem_cons_self _ _)
              (by
                refine List.Nodup.append haccnd (List.nodup_singleton _) ?_
                intro x hxa hxs
                rw [List.mem_singleton.mp hxs] at hxa
                exact hv (hacc x0 hxa))
              (by
                intro z hz hzv hzb
                rcases List.mem_cons.mp hzv with hzid | hzv
                · have hzx : z = x0 := blocks_id_inj hnodup hz hx0g hzid
                  subst hzx
                  refine ⟨List.mem_append_right _ (List.mem_singleton.mpr rfl),
                    fun p hp => Or.inr (List.mem_append_right _ hp)⟩
                · obtain ⟨hza, hzp⟩ := hinv3 z hz hzv hzb
                  refine ⟨List.mem_append_left _ hza, fun p hp => ?_⟩
                  rcases hzp p hp with h | h
                  · exact Or.inl (List.mem_cons_of_mem _ h)
                  · rcases List.mem_cons.mp h with rfl | h
                    · exact Or.inl (List.mem_cons_self _ _)
                    · exact Or.inr (List.mem_append_left _ h))
          refine ⟨res, vF, ?_, hnd, ?_, ?_, h4, ?_, ?_, h7⟩
          · simp only [bfsFromTime]
            rw [if_neg hv, hbf]
            exact hrun
          · intro x hx
            rcases h2 x hx with hxa | hxr
            · rcases List.mem_append.mp hxa with h | h
              · exact Or.inl h
              · rw [List.mem_singleton.mp h]
                exact Or.inr hra
            · exact Or.inr hxr
          · intro x hx
            exact h3 x (List.mem_append_left _ hx)
          · intro i hi
            exact h5 i (List.mem_cons_of_mem _ hi)
          · intro x hx
            rcases List.mem_cons.mp hx with rfl | hx
            · exact h5 _ (List.mem_cons_self _ _)
            · exact h6 x (List.mem_append_left _ hx)

theorem resolveHeads_ok_length {m : List Block} {ids : List String}
    {hb : List Block} (h : resolveHeads m ids = .ok hb) :
    hb.length = ids.length := by
  induction ids generalizing hb with
  | nil => cases h; rfl
  | cons i ids ih =>
    unfold resolveHeads at h
    cases hlook : lookupBlock m i with
    | none => rw [hlook] at h; cases h
    | some b =>
      rw [hlook] at h
      cases hrest : resolveHeads m ids with
      | error e => rw [hrest] at h; cases h
      | ok bs =>
        rw [hrest] at h
        cases h
        simp only [List.length_cons]
        rw [ih hrest]

theorem findBlocksFromTime_chr (g : BlockGraph) (minT : Int) (hb : List Block)
    (hnodup : (mapIds g.blockMap).Nodup)
    (hdata : ∀ z ∈ g.blockMap, z.data ≠ [])
    (hhb : g.getHeadBlocks = .ok hb) :
    ∃ res, findBlocksFromTime minT g = .ok res ∧ res.Nodup ∧
      ∀ x, x ∈ res ↔ ReachActiveB g.blockMap hb minT x := by
  have hheadsg : ∀ x ∈ hb, x ∈ g.blockMap := by
    intro x hx
    obtain ⟨i, _, hl⟩ := resolveHeads_ok_mem hhb x hx
    exact lookup_mem hl
  have hfuel : bfsMeasure g.blockMap hb [] < bfsFuel g := by
    unfold bfsMeasure bfsFuel
    rw [pendingWeight_nil_visited, resolveHeads_ok_length hhb]
    omega
  obtain ⟨res, vF, hrun, hnd, h2, h3, h4, h5, h6, h7⟩ :=
    bfs_loop g.blockMap minT hb hnodup hdata (bfsFuel g) hb [] [] hfuel
      (fun x hx => hheadsg x hx)
      (fun x hx => Or.inl hx)
      (fun x hx => absurd hx (List.not_mem_nil x))
      List.nodup_nil
      (fun z _ hzv _ => absurd hzv (List.not_mem_nil _))
  refine ⟨res, ?_, hnd, ?_⟩
  · unfold findBlocksFromTime
    rw [hhb]
    exact hrun
  · intro x
    constructor
    · intro hx
      rcases h2 x hx with h | h
      · exact absurd h (List.not_mem_nil x)
      · exact h
    · intro hx
      induction hx with
      | head y hy hby =>
        exact (h7 y (hheadsg y hy) (h6 y hy) hby).1
      | prev x y hyra hx hbx ihy =>
        have hyv : y._id ∈ vF := h4 y ihy
        have hyg : y ∈ g.blockMap := reachActiveB_mem hheadsg hyra
        have hyb : blockBeforeTime y minT = Except.ok false :=
          reachActiveB_not_before hyra
        have hclose := (h7 y hyg hyv hyb).2 x hx
        exact (h7 x (mem_of_resolvedPrev hx) hclose hbx).1

theorem reachActiveB_iff_reachableActive {g : BlockGraph} {hb : List Block}
    {minT : Int} (hnodup : (mapIds g.blockMap).Nodup)
    (hhb : g.getHeadBlocks = .ok hb) (x : Block) :
    ReachActiveB g.blockMap hb minT x ↔
      ReachableActive g.blockMap g.headBlockIds minT x := by
  constructor
  · intro h
    induction h with
    | head y hy hby =>
      obtain ⟨i, hi, hl⟩ := resolveHeads_ok_mem hhb y hy
      exact .head y (lookup_mem hl) (by rw [lookup_id hl]; exact hi) hby
    | prev x y _ hx hbx ihy =>
      obtain ⟨i, hi, hl⟩ := List.mem_filterMap.mp hx
      exact .prev x y ihy (lookup_mem hl) (by rw [lookup_id hl]; exact hi) hbx
  · intro h
    induction h with
    | head y hyg hyi hby =>
      obtain ⟨z, hz, hzl⟩ := resolveHeads_ok_forall hhb y._id hyi
      have hzy : z = y := blocks_id_inj hnodup (lookup_mem hzl) hyg (lookup_id hzl)
      exact .head y (hzy ▸ hz) hby
    | prev x y _ hxg hxi hbx ihy =>
      refine .prev x y ihy ?_ hbx
      exact List.mem_filterMap.mpr ⟨x._id, hxi, (lookup_some_iff hnodup).mpr ⟨hxg, rfl⟩⟩

/-- Claim C4 (amended): when the block ids are duplicate-free, every head id
is present in the in-memory map, and every loaded block carries at least one
update (on a block with empty `data` the walk's
`data[data.length - 1].timestamp` access throws a `TypeError` instead),
`findBlocksFromTime(minT, graph)` succeeds and returns exactly the blocks
reachable from the current heads through chains of blocks whose last
update's timestamp is ≥ `minT` (the walk prunes at any block older than
`minT`, so it does not visit ancestors hidden behind such a block, even when
those ancestors have fresh updates). -/
theorem findBlocksFromTime_spec (g : BlockGraph) (minT : Int)
    (hnodup : (mapIds g.blockMap).Nodup)
    (hdata : ∀ b ∈ g.blockMap, b.data ≠ [])
    (hheads : ∀ i ∈ g.headBlockIds, i ∈ mapIds g.blockMap) :
    ∃ res, findBlocksFromTime minT g = .ok res ∧ res.Nodup ∧
      ∀ x, x ∈ res ↔ ReachableActive g.blockMap g.headBlockIds minT x := by
  obtain ⟨hb, hhb⟩ := resolveHeads_isOk hheads
  have hhb' : g.getHeadBlocks = .ok hb := hhb
  obtain ⟨res, hrun, hnd, hiff⟩ :=
    findBlocksFromTime_chr g minT hb hnodup hdata hhb'
  exact ⟨res, hrun, hnd, fun x =>
    (hiff x).trans (reachActiveB_iff_reachableActive hnodup hhb' x)⟩

/-- Counterexample for claim C4 as stated: in `cxGraphPH` the block "p"
(last update at ts 50) is reachable from the head "h", and 50 ≥ 10, yet
`findBlocksFromTime 10` returns the empty list, because the walk prunes at
the stale head "h" (last update ts 5 < 10) and never visits "p".  So the
result is not "exactly the reachable blocks with last timestamp ≥ minT". -/
theorem findBlocksFromTime_misses_reachable_block :
    findBlocksFromTime 10 cxGraphPH = .ok [] ∧
    ReachableFrom cxGraphPH.blockMap cxGraphPH.headBlockIds cxBlockP ∧
    blockBeforeTime cxBlockP 10 = Except.ok false :=
  ⟨rfl,
   ReachableFrom.prev cxBlockP cxBlockH
     (ReachableFrom.head cxBlockH (by decide) (by decide))
     (by decide) (by decide),
   rfl⟩

/-- Witness for the amended C4 at the concrete graph `cxGraphPH`. -/
theorem findBlocksFromTime_spec_witness :
    (findBlocksFromTime 1 cxGraphPH).toOption.isSome = true := by
  obtain ⟨res, hres, -⟩ :=
    findBlocksFromTime_spec cxGraphPH 1 (by decide) (by decide) (by decide)
  rw [hres]
  rfl

/-- The empty-data fault of the walk is real: on a graph whose head block
carries no updates, `findBlocksFromTime` throws (the
`data[data.length - 1].timestamp` access on `undefined`) instead of
returning a block list, which is why `findBlocksFromTime_spec` assumes every
loaded block has nonempty `data`. -/
theorem findBlocksFromTime_empty_data_throws :
    findBlocksFromTime 0 cxGraphEmptyData =
      .error "TypeError: Cannot read properties of undefined (reading timestamp)" :=
  rfl

/-! Document store algebra: per-document projection, characterization of
delete-free replays, and the absorption property that makes re-applying
already-applied updates harmless. -/

theorem collApply_append (cs : CollectionStore) (l1 l2 : List DatabaseUpdate) :
    collApply cs (l1 ++ l2) = collApply (collApply cs l1) l2 :=
  List.foldl_append _ _ _ _

theorem docApply_append (x : Option Doc) (l1 l2 : List DatabaseUpdate) :
    docApply x (l1 ++ l2) = docApply (docApply x l1) l2 :=
  List.foldl_append _ _ _ _

theorem applyCollectionUpdate_at (cs : CollectionStore) (u : DatabaseUpdate) :
    applyCollectionUpdate cs u u.docId = applyDocUpdate (cs u.docId) u := by
  cases u with
  | field ts c d f v =>
    show (if d = d then _ else _) = _
    rw [if_pos rfl]
    show _ = applyDocUpdate (cs d) _
    unfold applyDocUpdate
    cases cs d <;> rfl
  | delete ts c d =>
    show (if d = d then none else _) = _
    rw [if_pos rfl]
    rfl

theorem applyCollectionUpdate_at_ne (cs : CollectionStore) (u : DatabaseUpdate)
    (i : String) (h : ¬ u.docId = i) : applyCollectionUpdate cs u i = cs i := by
  cases u with
  | field ts c d f v =>
    show (if i = d then _ else _) = _
    rw [if_neg (fun he => h he.symm)]
  | delete ts c d =>
    show (if i = d then none else _) = _
    rw [if_neg (fun he => h he.symm)]

theorem collApply_proj (us : List DatabaseUpdate) (cs : CollectionStore)
    (i : String) :
    collApply cs us i = docApply (cs i) (us.filter (fun u => u.docId == i)) := by
  induction us generalizing cs with
  | nil => rfl
  | cons u tl ih =>
    show collApply (applyCollectionUpdate cs u) tl i = _
    rw [ih]
    by_cases hid : u.docId = i
    · have hf : (u.docId == i) = true := beq_iff_eq.mpr hid
      simp only [List.filter, hf]
      show docApply (applyCollectionUpdate cs u i) _ = docApply (applyDocUpdate (cs i) u) _
      rw [← hid, applyCollectionUpdate_at]
    · have hf : (u.docId == i) = false := by
        rw [beq_eq_false_iff_ne]
        exact hid
      simp only [List.filter, hf]
      rw [applyCollectionUpdate_at_ne cs u i hid]

theorem lastAssign_eq_none_iff {us : List DatabaseUpdate} {k : String} :
    lastAssign us k = none ↔ ∀ u ∈ us, assignOf u k = none := by
  induction us with
  | nil =>
    simp [lastAssign]
  | cons u tl ih =>
    show (lastAssign tl k).or (assignOf u k) = none ↔ _
    rw [Option.or_eq_none, ih]
    constructor
    · rintro ⟨htl, hu⟩ v hv
      rcases List.mem_cons.mp hv with rfl | hv
      · exact hu
      · exact htl v hv
    · intro h
      exact ⟨fun v hv => h v (List.mem_cons_of_mem _ hv),
        h u (List.mem_cons_self _ _)⟩

theorem docApply_some_char {us : List DatabaseUpdate}
    (hnd : ∀ u ∈ us, u.isDelete = false) (d : Doc) :
    docApply (some d) us = some (fun k => (lastAssign us k).or (d k)) := by
  induction us generalizing d with
  | nil => rfl
  | cons u tl ih =>
    cases u with
    | delete ts c i =>
      exact absurd (hnd _ (List.mem_cons_self _ _)) (by simp [DatabaseUpdate.isDelete])
    | field ts c i f v =>
      show docApply (applyDocUpdate (some d) (.field ts c i f v)) tl = _
      show docApply (some (fun k => if k = f then some v else d k)) tl = _
      rw [ih (fun u hu => hnd u (List.mem_cons_of_mem _ hu))]
      congr 1
      funext k
      show Option.or (lastAssign tl k) (if k = f then some v else d k) =
        Option.or (Option.or (lastAssign tl k) (assignOf (.field ts c i f v) k)) (d k)
      rw [Option.or_assoc]
      congr 1
      show (if k = f then some v else d k) = Option.or (if k = f then some v else none) (d k)
      by_cases hk : k = f
      · rw [if_pos hk, if_pos hk]
        rfl
      · rw [if_neg hk, if_neg hk, Option.none_or]

theorem docApply_none_char {us : List DatabaseUpdate} {i : String}
    (hnd : ∀ u ∈ us, u.isDelete = false) (hne : us ≠ [])
    (hids : ∀ u ∈ us, u.docId = i) :
    docApply none us = some (fun k => (lastAssign us k).or (baseDoc i k)) := by
  cases us with
  | nil => exact absurd rfl hne
  | cons u tl =>
    cases u with
    | delete ts c j =>
      exact absurd (hnd _ (List.mem_cons_self _ _)) (by simp [DatabaseUpdate.isDelete])
    | field ts c j f v =>
      have hj : j = i := hids _ (List.mem_cons_self _ _)
      subst hj
      show docApply (applyDocUpdate none (.field ts c j f v)) tl = _
      show docApply (some (fun k => if k = f then some v
        else if k = "_id" then some j else none)) tl = _
      rw [docApply_some_char (fun u hu => hnd u (List.mem_cons_of_mem _ hu))]
      congr 1
      funext k
      show Option.or (lastAssign tl k)
          (if k = f then some v else if k = "_id" then some j else none) =
        Option.or (Option.or (lastAssign tl k) (assignOf (.field ts c j f v) k))
          (baseDoc j k)
      rw [Option.or_assoc]
      congr 1
      show (if k = f then some v else if k = "_id" then some j else none) =
        Option.or (if k = f then some v else none) (baseDoc j k)
      by_cases hk : k = f
      · rw [if_pos hk, if_pos hk]
        rfl
      · rw [if_neg hk, if_neg hk, Option.none_or]
        rfl

theorem docApply_state_independent {us : List DatabaseUpdate}
    (hdel : ∃ u ∈ us, u.isDelete = true) (x y : Option Doc) :
    docApply x us = docApply y us := by
  induction us generalizing x y with
  | nil =>
    obtain ⟨u, hu, -⟩ := hdel
    exact absurd hu (List.not_mem_nil u)
  | cons u tl ih =>
    cases u with
    | delete ts c i =>
      show docApply (applyDocUpdate x _) tl = docApply (applyDocUpdate y _) tl
      rfl
    | field ts c i f v =>
      obtain ⟨w, hw, hwd⟩ := hdel
      rcases List.mem_cons.mp hw with rfl | hwtl
      · exact absurd hwd (by simp [DatabaseUpdate.isDelete])
      · exact ih ⟨w, hwtl, hwd⟩ _ _

theorem docApply_absorb {t s : List DatabaseUpdate} (i : String)
    (hsub : ∀ u ∈ t, u ∈ s)
    (hti : ∀ u ∈ t, u.docId = i) (hsi : ∀ u ∈ s, u.docId = i)
    (x : Option Doc) :
    docApply (docApply x t) s = docApply x s := by
  by_cases hdel : ∃ u ∈ s, u.isDelete = true
  · exact docApply_state_independent hdel _ _
  · push_neg at hdel
    have hsd : ∀ u ∈ s, u.isDelete = false := fun u hu =>
      eq_false_of_ne_true (hdel u hu)
    have htd : ∀ u ∈ t, u.isDelete = false := fun u hu => hsd u (hsub u hu)
    have hkey : ∀ k, lastAssign s k = none → lastAssign t k = none := by
      intro k hk
      rw [lastAssign_eq_none_iff] at hk ⊢
      exact fun u hu => hk u (hsub u hu)
    have hor : ∀ z : Doc, (fun k => Option.or (lastAssign s k)
        (Option.or (lastAssign t k) (z k))) = fun k => Option.or (lastAssign s k) (z k) := by
      intro z
      funext k
      cases hk : lastAssign s k with
      | none =>
        rw [Option.none_or, Option.none_or, hkey k hk, Option.none_or]
      | some w => rfl
    cases x with
    | some d =>
      rw [docApply_some_char htd d, docApply_some_char hsd, docApply_some_char hsd d]
      exact congrArg some (hor d)
    | none =>
      cases t with
      | nil => rfl
      | cons u tl =>
        have hsne : s ≠ [] := by
          intro h
          rw [h] at hsub
          exact absurd (hsub u (List.mem_cons_self _ _)) (List.not_mem_nil u)
        rw [docApply_none_char htd (by intro h; cases h) hti,
          docApply_some_char hsd, docApply_none_char hsd hsne hsi]
        exact congrArg some (hor (baseDoc i))

theorem collApply_absorb {t s : List DatabaseUpdate}
    (hsub : ∀ u ∈ t, u ∈ s) (cs : CollectionStore) :
    collApply (collApply cs t) s = collApply cs s := by
  funext i
  rw [collApply_proj, collApply_proj, collApply_proj]
  refine docApply_absorb i ?_ ?_ ?_ (cs i)
  · intro u hu
    obtain ⟨hm, hp⟩ := List.mem_filter.mp hu
    exact List.mem_filter.mpr ⟨hsub u hm, hp⟩
  · intro u hu
    exact beq_iff_eq.mp ((List.mem_filter.mp hu).2)
  · intro u hu
    exact beq_iff_eq.mp ((List.mem_filter.mp hu).2)

/-! `Database.applyIncomingUpdates` never throws on collection-partitioned
input and equals its pure collectionwise description. -/

theorem coll_apply_ok {c : String} {vs : List DatabaseUpdate} (cs : CollectionStore)
    (h : ∀ u ∈ vs, u.collection = c) :
    Collection.applyIncomingUpdates c cs vs = .ok (collApply cs vs) := by
  induction vs generalizing cs with
  | nil => rfl
  | cons u tl ih =>
    show List.foldlM _ cs (u :: tl) = _
    rw [List.foldlM_cons]
    rw [if_neg (by
      intro hne
      exact hne (h u (List.mem_cons_self _ _)))]
    show Collection.applyIncomingUpdates c (applyCollectionUpdate cs u) tl = _
    exact ih _ (fun v hv => h v (List.mem_cons_of_mem _ hv))

theorem mem_dedupFirstAux {l seen : List String} {x : String} :
    x ∈ dedupFirstAux seen l ↔ x ∈ l ∧ x ∉ seen := by
  induction l generalizing seen with
  | nil => simp [dedupFirstAux]
  | cons y tl ih =>
    unfold dedupFirstAux
    by_cases hy : y ∈ seen
    · rw [if_pos hy, ih]
      constructor
      · rintro ⟨hm, hs⟩
        exact ⟨List.mem_cons_of_mem _ hm, hs⟩
      · rintro ⟨hm, hs⟩
        rcases List.mem_cons.mp hm with rfl | hm
        · exact absurd hy hs
        · exact ⟨hm, hs⟩
    · rw [if_neg hy]
      constructor
      · intro hm
        rcases List.mem_cons.mp hm with rfl | hm
        · exact ⟨List.mem_cons_self _ _, hy⟩
        · obtain ⟨htl, hns⟩ := ih.mp hm
          refine ⟨List.mem_cons_of_mem _ htl, fun hs => hns (List.mem_cons_of_mem _ hs)⟩
      · rintro ⟨hm, hs⟩
        rcases List.mem_cons.mp hm with rfl | hm
        · exact List.mem_cons_self _ _
        · by_cases hxy : x = y
          · subst hxy
            exact List.mem_cons_self _ _
          · refine List.mem_cons_of_mem _ (ih.mpr ⟨hm, ?_⟩)
            intro hmem
            rcases List.mem_cons.mp hmem with h | h
            · exact hxy h
            · exact hs h

theorem dedupFirstAux_nodup {l seen : List String} : (dedupFirstAux seen l).Nodup := by
  induction l generalizing seen with
  | nil => exact List.nodup_nil
  | cons y tl ih =>
    unfold dedupFirstAux
    by_cases hy : y ∈ seen
    · rw [if_pos hy]
      exact ih
    · rw [if_neg hy]
      refine List.nodup_cons.mpr ⟨?_, ih⟩
      intro hmem
      exact (mem_dedupFirstAux.mp hmem).2 (List.mem_cons_self _ _)

theorem mem_collectionKeys {us : List DatabaseUpdate} {u : DatabaseUpdate}
    (h : u ∈ us) : u.collection ∈ collectionKeys us := by
  unfold collectionKeys
  rw [mem_dedupFirstAux]
  exact ⟨List.mem_map.mpr ⟨u, h, rfl⟩, List.not_mem_nil _⟩

theorem db_fold (us : List DatabaseUpdate) :
    ∀ (keys : List String) (st : DocStore), keys.Nodup →
    keys.foldlM (fun st c => do
      let cs ← Collection.applyIncomingUpdates c (st c)
        (us.filter (fun u => u.collection == c))
      pure (fun c' => if c' = c then cs else st c')) st =
    Except.ok (fun c => if c ∈ keys then
      collApply (st c) (us.filter (fun u => u.collection == c)) else st c) := by
  intro keys
  induction keys with
  | nil =>
    intro st _
    show Except.ok st = _
    congr 1
  | cons c0 keys ih =>
    intro st hnd
    rw [List.foldlM_cons]
    have hstep : Collection.applyIncomingUpdates c0 (st c0)
        (us.filter (fun u => u.collection == c0)) =
        .ok (collApply (st c0) (us.filter (fun u => u.collection == c0))) :=
      coll_apply_ok _ (fun u hu => beq_iff_eq.mp ((List.mem_filter.mp hu).2))
    rw [hstep]
    show keys.foldlM _ (fun c' => if c' = c0 then _ else st c') = _
    rw [ih _ (List.nodup_cons.mp hnd).2]
    congr 1
    funext c
    by_cases hc : c ∈ keys
    · rw [if_pos hc, if_pos (List.mem_cons_of_mem _ hc)]
      have hne : c ≠ c0 := fun he => (List.nodup_cons.mp hnd).1 (he ▸ hc)
      rw [if_neg hne]
    · rw [if_neg hc]
      by_cases he : c = c0
      · subst he
        rw [if_pos rfl, if_pos (List.mem_cons_self _ _)]
      · rw [if_neg he, if_neg (by
          intro hmem
          rcases List.mem_cons.mp hmem with h | h
          · exact he h
          · exact hc h)]

theorem db_apply_ok (st : DocStore) (us : List DatabaseUpdate) :
    Database.applyIncomingUpdates st us = .ok (pureDbApply st us) := by
  unfold Database.applyIncomingUpdates
  rw [db_fold us (collectionKeys us) st dedupFirstAux_nodup]
  congr 1
  funext c
  unfold pureDbApply
  by_cases hc : c ∈ collectionKeys us
  · rw [if_pos hc]
  · rw [if_neg hc]
    have hf : us.filter (fun u => u.collection == c) = [] := by
      rw [List.filter_eq_nil]
      intro u hu hbeq
      rw [← beq_iff_eq.mp hbeq] at hc
      exact hc (mem_collectionKeys hu)
    rw [hf]
    rfl

/-! Sorting lemmas: the stable sort is determined by the multiset of updates
once all timestamps are distinct, and a sorted list splits at a cutoff. -/

theorem sortByTimestamp_sorted (l : List DatabaseUpdate) :
    (sortByTimestamp l).Pairwise tsLE :=
  List.sorted_insertionSort tsLE l

theorem sortByTimestamp_perm (l : List DatabaseUpdate) :
    List.Perm (sortByTimestamp l) l :=
  List.perm_insertionSort tsLE l

theorem pairwise_lt_of_sorted {l : List DatabaseUpdate}
    (hs : l.Pairwise tsLE) (hd : (l.map DatabaseUpdate.timestamp).Nodup) :
    l.Pairwise (fun a b => a.timestamp < b.timestamp) := by
  have hd' : l.Pairwise (fun a b => a.timestamp ≠ b.timestamp) :=
    List.pairwise_map.mp hd
  exact (hs.and hd').imp (fun h => lt_of_le_of_ne h.1 h.2)

theorem sorted_lt_unique {l1 l2 : List DatabaseUpdate}
    (hp : List.Perm l1 l2)
    (h1 : l1.Pairwise (fun a b => a.timestamp < b.timestamp))
    (h2 : l2.Pairwise (fun a b => a.timestamp < b.timestamp)) : l1 = l2 := by
  haveI : IsAntisymm DatabaseUpdate (fun a b => a.timestamp < b.timestamp) :=
    ⟨fun a b hab hba => absurd (lt_trans hab hba) (lt_irrefl _)⟩
  exact List.eq_of_perm_of_sorted hp h1 h2

theorem sortByTimestamp_eq_of_perm {l1 l2 : List DatabaseUpdate} (hp : List.Perm l1 l2)
    (hd : (l1.map DatabaseUpdate.timestamp).Nodup) :
    sortByTimestamp l1 = sortByTimestamp l2 := by
  have hperm : List.Perm (sortByTimestamp l1) (sortByTimestamp l2) :=
    (sortByTimestamp_perm l1).trans (hp.trans (sortByTimestamp_perm l2).symm)
  have hds1 : ((sortByTimestamp l1).map DatabaseUpdate.timestamp).Nodup :=
    (((sortByTimestamp_perm l1).map DatabaseUpdate.timestamp).nodup_iff).mpr hd
  have hds2 : ((sortByTimestamp l2).map DatabaseUpdate.timestamp).Nodup :=
    ((hperm.map DatabaseUpdate.timestamp).nodup_iff).mp hds1
  exact sorted_lt_unique hperm
    (pairwise_lt_of_sorted (sortByTimestamp_sorted l1) hds1)
    (pairwise_lt_of_sorted (sortByTimestamp_sorted l2) hds2)

theorem sorted_split (m : Int) {l : List DatabaseUpdate} (hs : l.Pairwise tsLE) :
    l = l.filter (fun u => decide (u.timestamp < m)) ++
      l.filter (fun u => decide (m ≤ u.timestamp)) := by
  induction l with
  | nil => rfl
  | cons u tl ih =>
    obtain ⟨hu, htl⟩ := List.pairwise_cons.mp hs
    by_cases hum : u.timestamp < m
    · have h1 : (decide (u.timestamp < m)) = true := decide_eq_true hum
      have h2 : (decide (m ≤ u.timestamp)) = false := by
        simp [not_le.mpr hum]
      simp only [List.filter, h1, h2]
      show u :: tl = u :: _
      exact congrArg _ (ih htl)
    · have hum' : m ≤ u.timestamp := not_lt.mp hum
      have h1 : (decide (u.timestamp < m)) = false := decide_eq_false hum
      have h2 : (decide (m ≤ u.timestamp)) = true := decide_eq_true hum'
      simp only [List.filter, h1, h2]
      have hpre : tl.filter (fun u => decide (u.timestamp < m)) = [] := by
        rw [List.filter_eq_nil]
        intro v hv hdec
        exact absurd (lt_of_le_of_lt (le_trans hum' (hu v hv)) (of_decide_eq_true hdec))
          (lt_irrefl _)
      have hsuf : tl.filter (fun u => decide (m ≤ u.timestamp)) = tl := by
        rw [List.filter_eq_self]
        intro v hv
        exact decide_eq_true (le_trans hum' (hu v hv))
      rw [hpre, hsuf]
      rfl

/-! Facts about single-update blocks and the pruned walk on a monotone DAG. -/

theorem singleUpdate_data {bs : List Block} (hsingle : singleUpdateBlocks bs)
    {b : Block} (hb : b ∈ bs) : ∃ u, b.data = [u] :=
  List.length_eq_one.mp (hsingle b hb)

theorem blockBeforeTime_single {b : Block} {u : DatabaseUpdate}
    (h : b.data = [u]) (m : Int) :
    blockBeforeTime b m = Except.ok (decide (u.timestamp < m)) := by
  unfold blockBeforeTime
  rw [h]
  rfl

theorem blockLastTs_single {b : Block} {u : DatabaseUpdate}
    (h : b.data = [u]) : blockLastTs b = u.timestamp := by
  unfold blockLastTs
  rw [h]
  rfl

theorem blockFirstTs_single {b : Block} {u : DatabaseUpdate}
    (h : b.data = [u]) : blockFirstTs b = u.timestamp := by
  unfold blockFirstTs
  rw [h]
  rfl

theorem flatMap_filter_single {bs : List Block} {P : Block → Bool}
    {p : DatabaseUpdate → Bool}
    (hsingle : ∀ b ∈ bs, ∃ u, b.data = [u] ∧ P b = p u) :
    (bs.filter P).flatMap Block.data = (bs.flatMap Block.data).filter p := by
  induction bs with
  | nil => rfl
  | cons b tl ih =>
    obtain ⟨u, hdata, hPp⟩ := hsingle b (List.mem_cons_self _ _)
    have ih' := ih (fun x hx => hsingle x (List.mem_cons_of_mem _ hx))
    show (List.filter P (b :: tl)).flatMap Block.data =
      (b.data ++ tl.flatMap Block.data).filter p
    rw [hdata, List.filter_append]
    cases hP : P b with
    | true =>
      have hpu : p u = true := hPp ▸ hP
      simp only [List.filter, hP, List.flatMap_cons, hdata, hpu]
      rw [ih']
    | false =>
      have hpu : p u = false := hPp ▸ hP
      simp only [List.filter, hP, hpu]
      rw [ih']
      rfl

/-- Strengthening of plain reachability to pruned reachability when each
block's updates are newer than all of its ancestors' updates: along any
path from a head down to a block with last timestamp ≥ `minT`, every
intermediate block also has last timestamp ≥ `minT`, so the pruned walk
reaches it. -/
theorem reachable_strengthen {g hb : List Block} {headIds : List String}
    {minT : Int}
    (hnodup : (mapIds g).Nodup)
    (hres : ∀ i ∈ headIds, ∃ z ∈ hb, lookupBlock g i = some z)
    (hsingle : ∀ b ∈ g, ∃ u, b.data = [u])
    (hmono : ∀ b ∈ g, ∀ p ∈ g, p._id ∈ b.prevBlocks →
      blockLastTs p < blockFirstTs b)
    {x : Block} (hx : ReachableFrom g headIds x)
    (hbefore : blockBeforeTime x minT = Except.ok false) :
    ReachActiveB g hb minT x := by
  induction hx with
  | head y hyg hyi =>
    obtain ⟨z, hz, hzl⟩ := hres y._id hyi
    have hzy : z = y := blocks_id_inj hnodup (lookup_mem hzl) hyg (lookup_id hzl)
    exact .head y (hzy ▸ hz) hbefore
  | prev x y hy hxg hxi ihy =>
    have hyg : y ∈ g := by
      cases hy with
      | head _ h _ => exact h
      | prev _ _ _ h _ => exact h
    obtain ⟨ux, hux⟩ := hsingle x hxg
    obtain ⟨uy, huy⟩ := hsingle y hyg
    have hlt : blockLastTs x < blockFirstTs y := hmono y hyg x hxg hxi
    have hxts : ¬ ux.timestamp < minT := by
      rw [blockBeforeTime_single hux] at hbefore
      exact of_decide_eq_false (Except.ok.inj hbefore)
    have hybefore : blockBeforeTime y minT = Except.ok false := by
      rw [blockBeforeTime_single huy]
      refine congrArg Except.ok (decide_eq_false ?_)
      rw [blockLastTs_single hux] at hlt
      rw [blockFirstTs_single huy] at hlt
      intro hcon
      exact hxts (lt_trans hlt hcon)
    refine .prev x y (ihy hybefore) ?_ hbefore
    exact List.mem_filterMap.mpr ⟨x._id, hxi, (lookup_some_iff hnodup).mpr ⟨hxg, rfl⟩⟩

theorem mem_setAdd_iff {l : List String} {a x : String} :
    x ∈ setAdd l a ↔ x ∈ l ∨ x = a := by
  unfold setAdd
  by_cases h : a ∈ l
  · rw [if_pos h]
    constructor
    · exact Or.inl
    · rintro (hx | rfl)
      · exact hx
      · exact h
  · rw [if_neg h, List.mem_append, List.mem_singleton]

theorem mem_dedupFirst {l : List String} {x : String} :
    x ∈ dedupFirst l ↔ x ∈ l := by
  unfold dedupFirst
  rw [mem_dedupFirstAux]
  exact ⟨fun h => h.1, fun h => ⟨h, List.not_mem_nil x⟩⟩

theorem reach_transfer {bs : List Block} {headIds : List String} {b : Block}
    {x : Block} (hx : ReachableFrom bs headIds x) :
    ReachableFrom (bs ++ [b])
      (setAdd ((dedupFirst headIds).filter (fun h => ¬ h ∈ b.prevBlocks)) b._id)
      x := by
  induction hx with
  | head y hyg hyi =>
    by_cases hyp : y._id ∈ b.prevBlocks
    · have hb : ReachableFrom (bs ++ [b])
          (setAdd ((dedupFirst headIds).filter
            (fun h => ¬ h ∈ b.prevBlocks)) b._id) b :=
        .head b (List.mem_append_right _ (List.mem_singleton.mpr rfl))
          (setAdd_self_mem _ _)
      exact .prev y b hb (List.mem_append_left _ hyg) hyp
    · refine .head y (List.mem_append_left _ hyg) ?_
      refine mem_setAdd_iff.mpr (Or.inl ?_)
      exact List.mem_filter.mpr ⟨mem_dedupFirst.mpr hyi, decide_eq_true hyp⟩
  | prev x y _ hxg hxi ihy =>
    exact .prev x y ihy (List.mem_append_left _ hxg) hxi

theorem except_bind_ok {α β : Type} (a : α) (f : α → Except String β) :
    (Except.ok a >>= f : Except String β) = f a := rfl

theorem except_pure {α : Type} (a : α) :
    (pure a : Except String α) = Except.ok a := rfl

theorem run_step {bs : List Block} {b : Block} {st : SyncNodeState}
    (hids : nodupBlockIds (bs ++ [b]))
    (hsingle : singleUpdateBlocks (bs ++ [b]))
    (hts : distinctTimestamps (bs ++ [b]))
    (hmono : monotonePrevTimestamps (bs ++ [b]))
    (hmap : st.graph.blockMap = bs)
    (hheads : ∀ i ∈ st.graph.headBlockIds, i ∈ mapIds bs)
    (hreach : ∀ x ∈ bs, ReachableFrom bs st.graph.headBlockIds x)
    (hstore : st.store = canonicalStore bs) :
    ∃ st', Sync.integrateBlock st b = .ok st' ∧
      st'.graph.blockMap = bs ++ [b] ∧
      (∀ i ∈ st'.graph.headBlockIds, i ∈ mapIds (bs ++ [b])) ∧
      (∀ x ∈ bs ++ [b], ReachableFrom (bs ++ [b]) st'.graph.headBlockIds x) ∧
      st'.store = canonicalStore (bs ++ [b]) := by
  obtain ⟨⟨gmap, gheads⟩, gstore⟩ := st
  dsimp only at hmap hheads hreach hstore ⊢
  subst hmap
  subst hstore
  -- id bookkeeping
  have hidsApp : (mapIds gmap ++ [b._id]).Nodup := by
    rw [← mapIds_append]
    exact hids
  have hnodupBs : (mapIds gmap).Nodup := (List.nodup_append.mp hidsApp).1
  have hbNotIn : b._id ∉ mapIds gmap := fun h =>
    (List.nodup_append.mp hidsApp).2.2 h (List.mem_singleton.mpr rfl)
  have hsingleBs : ∀ x ∈ gmap, ∃ u, x.data = [u] := fun x hx =>
    singleUpdate_data hsingle (List.mem_append_left _ hx)
  obtain ⟨ub, hub⟩ :=
    singleUpdate_data hsingle (List.mem_append_right _ (List.mem_singleton.mpr rfl))
  -- timestamps bookkeeping
  have hallL : allUpdates (gmap ++ [b]) = allUpdates gmap ++ [ub] := by
    unfold allUpdates
    rw [List.flatMap_append]
    simp [hub]
  have htsApp : ((allUpdates gmap).map DatabaseUpdate.timestamp ++
      [ub.timestamp]).Nodup := by
    have h0 : ((allUpdates (gmap ++ [b])).map DatabaseUpdate.timestamp).Nodup := hts
    rw [hallL, List.map_append] at h0
    exact h0
  have htsBs : ((allUpdates gmap).map DatabaseUpdate.timestamp).Nodup :=
    (List.nodup_append.mp htsApp).1
  have hubNot : ub.timestamp ∉ (allUpdates gmap).map DatabaseUpdate.timestamp :=
    fun h => (List.nodup_append.mp htsApp).2.2 h (List.mem_singleton.mpr rfl)
  -- the walk
  obtain ⟨hbRes, hhb⟩ := resolveHeads_isOk hheads
  have hhbOk : BlockGraph.getHeadBlocks ⟨gmap, gheads⟩ = .ok hbRes := hhb
  have hdataBs : ∀ z ∈ gmap, z.data ≠ [] := by
    intro z hz
    obtain ⟨u, hu⟩ := hsingleBs z hz
    rw [hu]
    exact List.cons_ne_nil u []
  obtain ⟨res, hfindEq, hresNd, hresIff⟩ :=
    findBlocksFromTime_chr ⟨gmap, gheads⟩ ub.timestamp hbRes hnodupBs hdataBs hhbOk
  have hresChr : ∀ x, x ∈ res ↔
      (x ∈ gmap ∧ blockBeforeTime x ub.timestamp = Except.ok false) := by
    intro x
    rw [hresIff x]
    constructor
    · intro h
      refine ⟨reachActiveB_mem ?_ h, reachActiveB_not_before h⟩
      intro y hy
      obtain ⟨i, _, hl⟩ := resolveHeads_ok_mem hhbOk y hy
      exact lookup_mem hl
    · rintro ⟨hxbs, hxb⟩
      exact reachable_strengthen hnodupBs
        (fun i hi => resolveHeads_ok_forall hhbOk i hi)
        hsingleBs
        (fun y hy p hp hpp => hmono y (List.mem_append_left _ hy)
          p (List.mem_append_left _ hp) hpp)
        (hreach x hxbs) hxb
  -- graph after integration
  have hmemFalse : ¬ BlockGraph.hasBlockInMemory ⟨gmap, gheads⟩ b._id = true :=
    fun h => hbNotIn (hasBlockInMemory_iff.mp h)
  have hgint : BlockGraph.integrateBlock ⟨gmap, gheads⟩ b =
      { blockMap := gmap ++ [b]
        headBlockIds := setAdd ((dedupFirst gheads).filter
          (fun h => ¬ h ∈ b.prevBlocks)) b._id } := by
    unfold BlockGraph.integrateBlock
    rw [if_neg hmemFalse, mapSet_of_not_mem hbNotIn]
  -- multiset analysis of the replay
  have hbsNodup : gmap.Nodup := List.Nodup.of_map _ hnodupBs
  have hresPerm : List.Perm res
      (gmap.filter
        (fun x => decide (blockBeforeTime x ub.timestamp = Except.ok false))) := by
    refine List.perm_of_nodup_nodup_toFinset_eq hresNd
      (List.Nodup.filter _ hbsNodup) (Finset.ext fun a => ?_)
    rw [List.mem_toFinset, List.mem_toFinset, List.mem_filter, hresChr a]
    rw [decide_eq_true_eq]
  have hfm : (gmap.filter
        (fun x => decide (blockBeforeTime x ub.timestamp = Except.ok false))).flatMap
        Block.data =
      (gmap.flatMap Block.data).filter
        (fun u => decide (ub.timestamp ≤ u.timestamp)) := by
    refine flatMap_filter_single ?_
    intro x hx
    obtain ⟨u, hu⟩ := hsingleBs x hx
    refine ⟨u, hu, ?_⟩
    rw [blockBeforeTime_single hu]
    refine decide_eq_decide.mpr ?_
    constructor
    · intro h
      exact not_lt.mp (of_decide_eq_false (Except.ok.inj h))
    · intro h
      exact congrArg Except.ok (decide_eq_false (not_lt.mpr h))
  have hSufPerm : List.Perm
      ((sortByTimestamp (allUpdates gmap)).filter
        (fun u => decide (ub.timestamp ≤ u.timestamp)))
      ((allUpdates gmap).filter (fun u => decide (ub.timestamp ≤ u.timestamp))) :=
    (sortByTimestamp_perm (allUpdates gmap)).filter _
  have hreplayRawPerm : List.Perm ((res ++ [b]).flatMap Block.data)
      ((sortByTimestamp (allUpdates gmap)).filter
        (fun u => decide (ub.timestamp ≤ u.timestamp)) ++ [ub]) := by
    rw [List.flatMap_append]
    have h1 : List.Perm (res.flatMap Block.data)
        ((sortByTimestamp (allUpdates gmap)).filter
          (fun u => decide (ub.timestamp ≤ u.timestamp))) := by
      have h0 := hresPerm.flatMap_right Block.data
      rw [hfm] at h0
      exact h0.trans hSufPerm.symm
    have h2 : ([b] : List Block).flatMap Block.data = [ub] := by simp [hub]
    rw [h2]
    exact h1.append (List.Perm.refl _)
  have hsufTs : ∀ u ∈ (sortByTimestamp (allUpdates gmap)).filter
      (fun u => decide (ub.timestamp ≤ u.timestamp)),
      ub.timestamp ≤ u.timestamp :=
    fun u hu => of_decide_eq_true (List.mem_filter.mp hu).2
  have hSmapNd : ((sortByTimestamp (allUpdates gmap)).map
      DatabaseUpdate.timestamp).Nodup :=
    (((sortByTimestamp_perm (allUpdates gmap)).map _).nodup_iff).mpr htsBs
  have hNdSufUb : (((sortByTimestamp (allUpdates gmap)).filter
      (fun u => decide (ub.timestamp ≤ u.timestamp)) ++ [ub]).map
        DatabaseUpdate.timestamp).Nodup := by
    rw [List.map_append]
    refine List.Nodup.append ?_ (List.nodup_singleton _) ?_
    · exact List.Nodup.sublist
        (List.Sublist.map _ (List.filter_sublist _)) hSmapNd
    · intro t ht hts1
      rw [List.mem_singleton.mp hts1] at ht
      obtain ⟨u, hu, hut⟩ := List.mem_map.mp ht
      have humem : u ∈ allUpdates gmap :=
        (sortByTimestamp_perm (allUpdates gmap)).mem_iff.mp
          (List.mem_of_mem_filter hu)
      rw [← hut] at hubNot
      exact hubNot (List.mem_map.mpr ⟨u, humem, rfl⟩)
  have hreplayPerm2 : List.Perm
      (sortByTimestamp ((res ++ [b]).flatMap Block.data))
      ((sortByTimestamp (allUpdates gmap)).filter
        (fun u => decide (ub.timestamp ≤ u.timestamp)) ++ [ub]) :=
    (sortByTimestamp_perm _).trans hreplayRawPerm
  -- T = pre ++ replay
  have hSplit := sorted_split ub.timestamp
    (sortByTimestamp_sorted (allUpdates gmap))
  have hTperm : List.Perm (sortByTimestamp (allUpdates (gmap ++ [b])))
      ((sortByTimestamp (allUpdates gmap)).filter
          (fun u => decide (u.timestamp < ub.timestamp)) ++
        sortByTimestamp ((res ++ [b]).flatMap Block.data)) := by
    refine (sortByTimestamp_perm _).trans ?_
    rw [hallL]
    refine List.Perm.trans ?_
      ((List.Perm.refl _).append hreplayPerm2.symm)
    rw [← List.append_assoc]
    refine List.Perm.append ?_ (List.Perm.refl [ub])
    rw [← hSplit]
    exact (sortByTimestamp_perm (allUpdates gmap)).symm
  have hTmapNd : ((sortByTimestamp (allUpdates (gmap ++ [b]))).map
      DatabaseUpdate.timestamp).Nodup :=
    (((sortByTimestamp_perm (allUpdates (gmap ++ [b]))).map _).nodup_iff).mpr hts
  have hSlt : (sortByTimestamp (allUpdates gmap)).Pairwise
      (fun a b => a.timestamp < b.timestamp) :=
    pairwise_lt_of_sorted (sortByTimestamp_sorted _) hSmapNd
  have hT : sortByTimestamp (allUpdates (gmap ++ [b])) =
      (sortByTimestamp (allUpdates gmap)).filter
          (fun u => decide (u.timestamp < ub.timestamp)) ++
        sortByTimestamp ((res ++ [b]).flatMap Block.data) := by
    refine sorted_lt_unique hTperm
      (pairwise_lt_of_sorted (sortByTimestamp_sorted _) hTmapNd) ?_
    rw [List.pairwise_append]
    refine ⟨List.Pairwise.sublist (List.filter_sublist _) hSlt, ?_, ?_⟩
    · refine pairwise_lt_of_sorted (sortByTimestamp_sorted _) ?_
      exact ((hreplayPerm2.map _).nodup_iff).mpr hNdSufUb
    · intro u hu v hv
      have hult : u.timestamp < ub.timestamp :=
        of_decide_eq_true (List.mem_filter.mp hu).2
      have hvge : ub.timestamp ≤ v.timestamp := by
        have hv2 := hreplayPerm2.mem_iff.mp hv
        rcases List.mem_append.mp hv2 with h | h
        · exact hsufTs v h
        · rw [List.mem_singleton.mp h]
      exact lt_of_lt_of_le hult hvge
  -- the store after the replay
  have hstoreEq : pureDbApply (canonicalStore gmap)
      (sortByTimestamp ((res ++ [b]).flatMap Block.data)) =
      canonicalStore (gmap ++ [b]) := by
    funext c
    show collApply (collApply emptyCollectionStore
        ((sortByTimestamp (allUpdates gmap)).filter (fun u => u.collection == c)))
        ((sortByTimestamp ((res ++ [b]).flatMap Block.data)).filter
          (fun u => u.collection == c)) =
      collApply emptyCollectionStore
        ((sortByTimestamp (allUpdates (gmap ++ [b]))).filter
          (fun u => u.collection == c))
    have hcsplit : (sortByTimestamp (allUpdates gmap)).filter
        (fun u => u.collection == c) =
        (((sortByTimestamp (allUpdates gmap)).filter
          (fun u => decide (u.timestamp < ub.timestamp))).filter
            (fun u => u.collection == c)) ++
        (((sortByTimestamp (allUpdates gmap)).filter
          (fun u => decide (ub.timestamp ≤ u.timestamp))).filter
            (fun u => u.collection == c)) := by
      nth_rewrite 1 [hSplit]
      rw [List.filter_append]
    rw [hT, List.filter_append, collApply_append, hcsplit, collApply_append]
    refine collApply_absorb ?_ _
    intro u hu
    obtain ⟨hum, hup⟩ := List.mem_filter.mp hu
    refine List.mem_filter.mpr ⟨?_, hup⟩
    exact hreplayPerm2.mem_iff.mpr (List.mem_append_left _ hum)
  -- assemble
  refine ⟨{ graph := BlockGraph.integrateBlock ⟨gmap, gheads⟩ b
            store := pureDbApply (canonicalStore gmap)
              (sortByTimestamp ((res ++ [b]).flatMap Block.data)) },
    ?_, ?_, ?_, ?_, ?_⟩
  · simp only [Sync.integrateBlock, hub, except_bind_ok, hfindEq, db_apply_ok,
      except_pure]
  · rw [hgint]
  · intro i hi
    rw [hgint] at hi
    replace hi : i ∈ setAdd _ _ := hi
    rcases mem_setAdd_iff.mp hi with h | rfl
    · have h2 := List.mem_of_mem_filter h
      rw [mem_dedupFirst] at h2
      rw [mapIds_append, List.mem_append]
      exact Or.inl (hheads i h2)
    · rw [mapIds_append, List.mem_append]
      exact Or.inr (List.mem_singleton.mpr rfl)
  · intro x hx
    rw [hgint]
    rcases List.mem_append.mp hx with hxl | hxr
    · exact reach_transfer (hreach x hxl)
    · rw [List.mem_singleton.mp hxr]
      exact .head b (List.mem_append_right _ (List.mem_singleton.mpr rfl))
        (setAdd_self_mem _ _)
  · exact hstoreEq

/-! Decomposing a valid order at its last block. -/

theorem validOrder_snoc {xs : List Block} {b : Block} :
    ∀ {seen : List String}, (validOrderFrom seen (xs ++ [b]) = true ↔
      validOrderFrom seen xs = true ∧
      ∀ p ∈ b.prevBlocks, (p ∈ mapIds xs ∨ p ∈ seen)) := by
  induction xs with
  | nil =>
    intro seen
    show (b.prevBlocks.all (fun p => decide (p ∈ seen)) && true) = true ↔ _
    rw [Bool.and_true, List.all_eq_true]
    constructor
    · intro h
      exact ⟨rfl, fun p hp => Or.inr (of_decide_eq_true (h p hp))⟩
    · rintro ⟨-, h⟩
      intro p hp
      rcases h p hp with hm | hm
      · exact absurd hm (List.not_mem_nil p)
      · exact decide_eq_true hm
  | cons x xs ih =>
    intro seen
    show (x.prevBlocks.all _ && validOrderFrom (x._id :: seen) (xs ++ [b])) = true ↔
      ((x.prevBlocks.all _ && validOrderFrom (x._id :: seen) xs) = true ∧ _)
    rw [Bool.and_eq_true, Bool.and_eq_true, ih]
    constructor
    · rintro ⟨ha, hv, hp⟩
      refine ⟨⟨ha, hv⟩, ?_⟩
      intro p hpp
      rcases hp p hpp with hm | hm
      · exact Or.inl (List.mem_cons_of_mem _ hm)
      · rcases List.mem_cons.mp hm with rfl | hm
        · exact Or.inl (List.mem_cons_self _ _)
        · exact Or.inr hm
    · rintro ⟨⟨ha, hv⟩, hp⟩
      refine ⟨ha, hv, ?_⟩
      intro p hpp
      rcases hp p hpp with hm | hm
      · rcases List.mem_cons.mp hm with heq | hm
        · exact Or.inr (heq ▸ List.mem_cons_self _ _)
        · exact Or.inl hm
      · exact Or.inr (List.mem_cons_of_mem _ hm)

/-! Rebuild invariant over a valid integration order, and the deterministic
rebuild theorems. -/

theorem run_invariant (bs : List Block)
    (hvalid : validOrder bs = true)
    (hids : nodupBlockIds bs)
    (hsingle : singleUpdateBlocks bs)
    (hts : distinctTimestamps bs)
    (hmono : monotonePrevTimestamps bs) :
    ∃ st, Sync.runBlocks Sync.emptyNode bs = .ok st ∧
      st.graph.blockMap = bs ∧
      (∀ i ∈ st.graph.headBlockIds, i ∈ mapIds bs) ∧
      (∀ x ∈ bs, ReachableFrom bs st.graph.headBlockIds x) ∧
      st.store = canonicalStore bs := by
  induction bs using List.reverseRecOn with
  | nil =>
    refine ⟨Sync.emptyNode, rfl, rfl, ?_, ?_, rfl⟩
    · intro i hi
      exact absurd hi (List.not_mem_nil i)
    · intro x hx
      exact absurd hx (List.not_mem_nil x)
  | append_singleton bs b ih =>
    obtain ⟨hvbs, hprev⟩ := validOrder_snoc.mp hvalid
    have hidsApp : (mapIds bs ++ [b._id]).Nodup := by
      rw [← mapIds_append]
      exact hids
    have hidsBs : nodupBlockIds bs := (List.nodup_append.mp hidsApp).1
    have hsingleBs : singleUpdateBlocks bs :=
      fun x hx => hsingle x (List.mem_append_left _ hx)
    have htsBs : distinctTimestamps bs := by
      have h0 : ((allUpdates (bs ++ [b])).map DatabaseUpdate.timestamp).Nodup := hts
      unfold allUpdates at h0
      rw [List.flatMap_append, List.map_append] at h0
      exact (List.nodup_append.mp h0).1
    have hmonoBs : monotonePrevTimestamps bs :=
      fun x hx p hp hpp => hmono x (List.mem_append_left _ hx)
        p (List.mem_append_left _ hp) hpp
    obtain ⟨st, hrun, h1, h2, h3, h4⟩ := ih hvbs hidsBs hsingleBs htsBs hmonoBs
    have hprev' : ∀ p ∈ b.prevBlocks, p ∈ mapIds bs := by
      intro p hp
      rcases hprev p hp with h | h
      · exact h
      · exact absurd h (List.not_mem_nil p)
    obtain ⟨st', hint, g1, g2, g3, g4⟩ :=
      run_step hids hsingle hts hmono h1 h2 h3 h4
    refine ⟨st', ?_, g1, g2, g3, g4⟩
    have hrun' : bs.foldlM Sync.integrateBlock Sync.emptyNode = .ok st := hrun
    show (bs ++ [b]).foldlM Sync.integrateBlock Sync.emptyNode = .ok st'
    rw [List.foldlM_append, hrun', except_bind_ok, List.foldlM_cons, hint,
      except_bind_ok]
    rfl

/-- Counterexample for claim C1 as stated: three timestamped blocks with no
parents (so both integration orders are valid), integrated into empty
replicas.  Block "x" spans timestamps 10..30, so when it survives the cutoff
its old `Delete(d)@10` is re-applied while block "w" (whose only update is
`d.f = "v"@20`) is skipped by the cutoff — in the order [w, x, z] document
"d" is absent at the end, in the order [x, z, w] it exists.  The two runs
yield different final document sets. -/
theorem rebuild_not_deterministic :
    validOrder [cxBlockW, cxBlockX, cxBlockZ] = true ∧
    validOrder [cxBlockX, cxBlockZ, cxBlockW] = true ∧
    List.Perm [cxBlockW, cxBlockX, cxBlockZ] [cxBlockX, cxBlockZ, cxBlockW] ∧
    Sync.runDocExists [cxBlockW, cxBlockX, cxBlockZ] "c" "d" = some false ∧
    Sync.runDocExists [cxBlockX, cxBlockZ, cxBlockW] "c" "d" = some true := by
  refine ⟨by decide, by decide, ?_, by decide, by decide⟩
  have h : ([cxBlockW] ++ [cxBlockX, cxBlockZ]).Perm
      ([cxBlockX, cxBlockZ] ++ [cxBlockW]) := List.perm_append_comm
  exact h

/-- Claim C1 (amended): deterministic rebuild holds for block sets in which
every block carries exactly one update, all update timestamps are distinct,
and every block's update is newer than the updates of each of its
`prevBlocks`.  Integrating such a set into an empty replica in any two valid
orders (each block only after all of its `prevBlocks`; on each integration
the concatenated updates of the affected blocks are replayed in ascending
timestamp order with a stable sort) succeeds and yields the same final
document store. -/
theorem deterministic_rebuild (bs1 bs2 : List Block)
    (hperm : List.Perm bs1 bs2)
    (hv1 : validOrder bs1 = true) (hv2 : validOrder bs2 = true)
    (hids : nodupBlockIds bs1)
    (hsingle : singleUpdateBlocks bs1)
    (hts : distinctTimestamps bs1)
    (hmono : monotonePrevTimestamps bs1) :
    Sync.runStore bs1 = Sync.runStore bs2 ∧
    (Sync.runStore bs1).isSome = true := by
  have hupdperm : List.Perm (allUpdates bs1) (allUpdates bs2) :=
    hperm.flatMap_right Block.data
  have hids2 : nodupBlockIds bs2 := ((hperm.map _).nodup_iff).mp hids
  have hsingle2 : singleUpdateBlocks bs2 :=
    fun x hx => hsingle x (hperm.mem_iff.mpr hx)
  have hts2 : distinctTimestamps bs2 := ((hupdperm.map _).nodup_iff).mp hts
  have hmono2 : monotonePrevTimestamps bs2 :=
    fun x hx p hp hpp => hmono x (hperm.mem_iff.mpr hx)
      p (hperm.mem_iff.mpr hp) hpp
  obtain ⟨st1, hrun1, -, -, -, hs1⟩ :=
    run_invariant bs1 hv1 hids hsingle hts hmono
  obtain ⟨st2, hrun2, -, -, -, hs2⟩ :=
    run_invariant bs2 hv2 hids2 hsingle2 hts2 hmono2
  have hcanon : canonicalStore bs1 = canonicalStore bs2 := by
    unfold canonicalStore
    rw [sortByTimestamp_eq_of_perm hupdperm hts]
  constructor
  · unfold Sync.runStore
    rw [hrun1, hrun2]
    show some st1.store = some st2.store
    rw [hs1, hs2, hcanon]
  · unfold Sync.runStore
    rw [hrun1]
    rfl

/-- Witness for the amended C1: two independent single-update blocks with
distinct timestamps integrated in both orders give the same store. -/
theorem deterministic_rebuild_witness :
    validOrder [wBlockP1, wBlockP2] = true ∧
    Sync.runStore [wBlockP1, wBlockP2] = Sync.runStore [wBlockP2, wBlockP1] ∧
    (Sync.runStore [wBlockP1, wBlockP2]).isSome = true := by
  have h := deterministic_rebuild [wBlockP1, wBlockP2] [wBlockP2, wBlockP1]
    (List.Perm.swap wBlockP2 wBlockP1 [])
    (by decide) (by decide)
    (by unfold nodupBlockIds; decide)
    (by unfold singleUpdateBlocks; decide)
    (by unfold distinctTimestamps allUpdates; decide)
    (by unfold monotonePrevTimestamps blockLastTs blockFirstTs; decide)
  exact ⟨by decide, h.1, h.2⟩
